import Mathlib

/-!
# Ray Tracing core: bounding boxes, materials and the constant medium

A shallow embedding of `aabb.h`, `vec3.h`, `material.h`, `constant_medium.h`
and `integrate_x_sq.cpp`.

The C++ type `double` is read as an arbitrary linear ordered field `F`
(exact arithmetic: rounding, NaN and the IEEE infinities are outside the
model), so every definition runs on `ℚ` and every theorem also holds on `ℝ`.
Where the code can divide by zero on an input its callers may pass, a second
reading `xdouble` adds the two infinities and NaN to the field, with the IEEE
rules for them; it is used for `lambertian::scattering_pdf`.
The transcendental functions of `<cmath>` (`sqrt`, `log`) are carried in a
record `cmath`; what a theorem needs of them is a hypothesis at the point where
the code calls them.  The exact library functions `fmin`, `fabs`, `std::swap`
and `pow(_, 5)` are modelled directly.  Random draws are explicit arguments.
-/

namespace RayTracing

/-! ## `<cmath>` and `rtweekend.h` -/

/-- The transcendental functions the sources call from the C math library. -/
structure cmath (F : Type) where
  sqrt : F → F
  log : F → F

/-- The bounds a caller can pass to a `hittable::hit`: a finite double, or the
constant `infinity` of `rtweekend.h` with either sign. -/
inductive tbound (F : Type) where
  | neg_infinity : tbound F
  | finite : F → tbound F
  | infinity : tbound F
deriving DecidableEq, Repr

/-! ## vec3.h -/

/-- The class `vec3`: the array `double e[3]`. -/
structure vec3 (F : Type) where
  e0 : F
  e1 : F
  e2 : F
deriving DecidableEq, Repr

/-- The alias `using point3 = vec3`. -/
abbrev point3 (F : Type) := vec3 F

/-- The alias `using color = vec3`. -/
abbrev color (F : Type) := vec3 F

section Vec3

variable {F : Type} [LinearOrderedField F]

/-- The function `fmin` of `<cmath>` on numbers. -/
def fmin (a b : F) : F := min a b

/-- The function `fabs` of `<cmath>`. -/
def fabs (a : F) : F := |a|

namespace vec3

/-- The accessor `x()`. -/
def x (v : vec3 F) : F := v.e0

/-- The accessor `y()`. -/
def y (v : vec3 F) : F := v.e1

/-- The accessor `z()`. -/
def z (v : vec3 F) : F := v.e2

/-- The indexing `operator[]`, used with `i` in `0, 1, 2`. -/
def idx (v : vec3 F) (i : Nat) : F :=
  match i with
  | 0 => v.e0
  | 1 => v.e1
  | _ => v.e2

/-- The method `length_squared()`. -/
def length_squared (v : vec3 F) : F :=
  v.e0 * v.e0 + v.e1 * v.e1 + v.e2 * v.e2

/-- The method `length()`. -/
def length (m : cmath F) (v : vec3 F) : F :=
  m.sqrt v.length_squared

/-- Unary `operator-`. -/
instance : Neg (vec3 F) where
  neg v := ⟨-v.e0, -v.e1, -v.e2⟩

/-- Binary `operator+` on two vectors. -/
instance : Add (vec3 F) where
  add u v := ⟨u.e0 + v.e0, u.e1 + v.e1, u.e2 + v.e2⟩

/-- Binary `operator-` on two vectors. -/
instance : Sub (vec3 F) where
  sub u v := ⟨u.e0 - v.e0, u.e1 - v.e1, u.e2 - v.e2⟩

/-- Componentwise `operator*` on two vectors. -/
instance : Mul (vec3 F) where
  mul u v := ⟨u.e0 * v.e0, u.e1 * v.e1, u.e2 * v.e2⟩

/-- The scaling `operator*(double t, const vec3 &u)`. -/
instance : HMul F (vec3 F) (vec3 F) where
  hMul t u := ⟨u.e0 * t, u.e1 * t, u.e2 * t⟩

/-- The scaling `operator*(const vec3 &u, double t)`, which is `t * u`. -/
instance : HMul (vec3 F) F (vec3 F) where
  hMul u t := t * u

/-- The division `operator/(const vec3 &u, double t)`, which is `(1 / t) * u`. -/
instance : HDiv (vec3 F) F (vec3 F) where
  hDiv u t := (1 / t) * u

end vec3

/-- The function `dot`. -/
def dot (u v : vec3 F) : F :=
  u.e0 * v.e0 + u.e1 * v.e1 + u.e2 * v.e2

/-- The function `cross`. -/
def cross (u v : vec3 F) : vec3 F :=
  ⟨u.e1 * v.e2 - u.e2 * v.e1, u.e2 * v.e0 - u.e0 * v.e2, u.e0 * v.e1 - u.e1 * v.e0⟩

/-- The function `unit_vector`. -/
def unit_vector (m : cmath F) (v : vec3 F) : vec3 F :=
  v / v.length m

/-- The function `reflect`: `v - 2 * dot(v, n) * n`. -/
def reflect (v n : vec3 F) : vec3 F :=
  v - (2 * dot v n) * n

/-- The function `refract`. -/
def refract (m : cmath F) (uv n : vec3 F) (etai_over_etat : F) : vec3 F :=
  let cos_theta := fmin (dot (-uv) n) 1
  let r_out_perp : vec3 F := etai_over_etat * (uv + cos_theta * n)
  let r_out_parallel : vec3 F := (-m.sqrt (fabs (1 - r_out_perp.length_squared))) * n
  r_out_perp + r_out_parallel

end Vec3

/-! ## ray.h (not among the sources) -/

/-- Modelled from the spec: the class `ray` of `ray.h`, which is not among the
sources: an origin point, a direction vector and a time value. -/
structure ray (F : Type) where
  orig : point3 F
  dir : vec3 F
  tm : F
deriving DecidableEq, Repr

section Ray

variable {F : Type} [LinearOrderedField F]

namespace ray

/-- The accessor `origin()`. -/
def origin (r : ray F) : point3 F := r.orig

/-- The accessor `direction()`. -/
def direction (r : ray F) : vec3 F := r.dir

/-- The accessor `time()`. -/
def time (r : ray F) : F := r.tm

end ray

/-- Modelled from the spec: the method `ray::at` of `ray.h`, the point at
parameter `t` along the ray, `origin + t * direction`. -/
def ray.at (r : ray F) (t : F) : point3 F := r.orig + t * r.dir

end Ray

/-! ## aabb.h -/

/-- The class `aabb`: the two corner points. -/
structure aabb (F : Type) where
  minimum : point3 F
  maximum : point3 F
deriving DecidableEq, Repr

section Aabb

variable {F : Type} [LinearOrderedField F]

namespace aabb

/-- The accessor `min()`. -/
def min (b : aabb F) : point3 F := b.minimum

/-- The accessor `max()`. -/
def max (b : aabb F) : point3 F := b.maximum

/-- One pass through the body of the loop of `aabb::hit` for axis `i`, up to
the test `t_max <= t_min`: the updated pair `(t_min, t_max)`. -/
def hit_axis (b : aabb F) (r : ray F) (i : Nat) (t_min t_max : F) : F × F :=
  let invD := 1 / r.direction.idx i
  let t0 := (b.min.idx i - r.origin.idx i) * invD
  let t1 := (b.max.idx i - r.origin.idx i) * invD
  let t01 : F × F := if invD < 0 then (t1, t0) else (t0, t1)
  let t_min := if t01.1 > t_min then t01.1 else t_min
  let t_max := if t01.2 < t_max then t01.2 else t_max
  (t_min, t_max)

/-- The loop of `aabb::hit` over the axes still to visit, with its early
`return false`. -/
def hit_loop (b : aabb F) (r : ray F) : List Nat → F → F → Bool
  | [], _, _ => true
  | i :: rest, t_min, t_max =>
    let tt := hit_axis b r i t_min t_max
    if tt.2 ≤ tt.1 then false else hit_loop b r rest tt.1 tt.2

/-- The method `aabb::hit`: `for (int i = 0; i < 3; i++)`. -/
def hit (b : aabb F) (r : ray F) (t_min t_max : F) : Bool :=
  hit_loop b r [0, 1, 2] t_min t_max

/-- The interval left after shrinking over all the listed axes, never leaving
the loop early. -/
def shrink_all (b : aabb F) (r : ray F) : List Nat → F → F → F × F
  | [], t_min, t_max => (t_min, t_max)
  | i :: rest, t_min, t_max =>
    let tt := hit_axis b r i t_min t_max
    shrink_all b r rest tt.1 tt.2

/-- The slab test as the specification describes its unoptimised form: shrink
the interval over the three axes, and only then report no hit when the final
`t_max <= t_min`. -/
def hit_no_early_exit (b : aabb F) (r : ray F) (t_min t_max : F) : Bool :=
  let tt := shrink_all b r [0, 1, 2] t_min t_max
  if tt.2 ≤ tt.1 then false else true

/-- The point `p` lies in the closed box: `minimum <= p <= maximum` on every axis. -/
def contains_closed (b : aabb F) (p : point3 F) : Prop :=
  ∀ i : Nat, i < 3 → b.minimum.idx i ≤ p.idx i ∧ p.idx i ≤ b.maximum.idx i

/-- The point `p` lies strictly inside the box: `minimum < p < maximum` on every axis. -/
def contains_open (b : aabb F) (p : point3 F) : Prop :=
  ∀ i : Nat, i < 3 → b.minimum.idx i < p.idx i ∧ p.idx i < b.maximum.idx i

/-- The box `outer` encloses the box `inner`: on every axis its minimum corner
is at most, and its maximum corner at least, that of `inner`. -/
def encloses (outer inner : aabb F) : Prop :=
  ∀ i : Nat, i < 3 →
    outer.minimum.idx i ≤ inner.minimum.idx i ∧ inner.maximum.idx i ≤ outer.maximum.idx i

end aabb

/-- The function `surrounding_box`. -/
def surrounding_box (box0 box1 : aabb F) : aabb F :=
  let small : point3 F :=
    ⟨fmin box0.min.x box1.min.x, fmin box0.min.y box1.min.y, fmin box0.min.z box1.min.z⟩
  let big : point3 F :=
    ⟨fmin box0.max.x box1.max.x, fmin box0.max.y box1.max.y, fmin box0.max.z box1.max.z⟩
  ⟨small, big⟩

end Aabb

/-! ## hittable.h, texture.h and pdf.h (not among the sources) -/

/-- Modelled from the spec: the texture capability of `texture.h`, which is not
among the sources: the colour lookup `value(u, v, p)`. -/
abbrev texture (F : Type) := F → F → point3 F → color F

/-- Modelled from the spec: the texture `solid_color` of `texture.h`, the same
colour everywhere. -/
def solid_color {F : Type} (c : color F) : texture F := fun _ _ _ => c

/-- Modelled from the spec: the density objects of `pdf.h`, which is not among
the sources; the materials only build the cosine density about a normal. -/
inductive pdf (F : Type) where
  | cosine_pdf : vec3 F → pdf F

/-! ## material.h: the material classes -/

/-- The class `lambertian`. -/
structure lambertian (F : Type) where
  albedo : texture F

/-- The class `metal`. -/
structure metal (F : Type) where
  albedo : color F
  fuzz : F

/-- The class `dielectric`. -/
structure dielectric (F : Type) where
  ir : F

/-- The class `diffuse_light`. -/
structure diffuse_light (F : Type) where
  emit : texture F

/-- The class `isotropic`. -/
structure isotropic (F : Type) where
  albedo : texture F

/-- What a `shared_ptr<material>` can point to: one of the five material classes. -/
inductive material (F : Type) where
  | lambertian : lambertian F → material F
  | metal : metal F → material F
  | dielectric : dielectric F → material F
  | diffuse_light : diffuse_light F → material F
  | isotropic : isotropic F → material F

/-- Modelled from the spec: the struct `hit_record` of `hittable.h`, which is
not among the sources: hit point, normal, material, distance `t`, surface
parameters and the orientation flag. -/
structure hit_record (F : Type) where
  p : point3 F
  normal : vec3 F
  mat_ptr : Option (material F)
  t : F
  u : F
  v : F
  front_face : Bool

/-- Modelled from the spec: the method `hit` of the `hittable` capability of
`hittable.h`: for a ray and two bounds, the filled hit record, or `none` for
`false`. -/
abbrev hittable (F : Type) := ray F → tbound F → tbound F → Option (hit_record F)

/-- The struct `scatter_record`. -/
structure scatter_record (F : Type) where
  specular_ray : ray F
  is_specular : Bool
  attenuation : color F
  pdf_ptr : Option (pdf F)

section Material

variable {F : Type} [LinearOrderedField F]

/-- The default `material::scatter`: `return false`. -/
def material.scatter (_r_in : ray F) (_rec : hit_record F) (_srec : scatter_record F) :
    Option (scatter_record F) :=
  none

/-- The default `material::scattering_pdf`: `return 0`. -/
def material.scattering_pdf (_r_in : ray F) (_rec : hit_record F) (_scattered : ray F) : F :=
  0

/-- The default `material::emitted`: `return color(0, 0, 0)`. -/
def material.emitted (_r_in : ray F) (_rec : hit_record F) (_u _v : F) (_p : point3 F) :
    color F :=
  ⟨0, 0, 0⟩

/-- The method `lambertian::scatter`; `none` stands for `return false`. -/
def lambertian.scatter (l : lambertian F) (_r_in : ray F) (rec : hit_record F)
    (srec : scatter_record F) : Option (scatter_record F) :=
  some { srec with
    is_specular := false
    attenuation := l.albedo rec.u rec.v rec.p
    pdf_ptr := some (pdf.cosine_pdf rec.normal) }

/-- The method `lambertian::scattering_pdf`; `pi` is the constant of `rtweekend.h`. -/
def lambertian.scattering_pdf (m : cmath F) (pi : F) (_l : lambertian F) (_r_in : ray F)
    (rec : hit_record F) (scattered : ray F) : F :=
  let cosine := dot rec.normal (unit_vector m scattered.direction)
  if cosine < 0 then 0 else cosine / pi

/-- The constructor `metal::metal` (a definition cannot carry the name of its
own structure): `albedo(a), fuzz(f < 1 ? f : 1)`. -/
def metal.ctor (a : color F) (f : F) : metal F :=
  { albedo := a, fuzz := if f < 1 then f else 1 }

/-- The method `metal::scatter`; `random_in_unit_sphere` is the vector the
rejection sampler returns. -/
def metal.scatter (m : cmath F) (mt : metal F) (r_in : ray F) (rec : hit_record F)
    (_srec : scatter_record F) (random_in_unit_sphere : vec3 F) : Option (scatter_record F) :=
  let reflected := reflect (unit_vector m r_in.direction) rec.normal
  some
    { specular_ray := ⟨rec.p, reflected + mt.fuzz * random_in_unit_sphere, 0⟩
      attenuation := mt.albedo
      is_specular := true
      pdf_ptr := none }

/-- The private function `dielectric::reflectance`: Schlick's approximation. -/
def dielectric.reflectance (cosine ref_idx : F) : F :=
  let r0 := (1 - ref_idx) / (1 + ref_idx)
  let r0 := r0 * r0
  r0 + (1 - r0) * (1 - cosine) ^ 5

/-- The local `refraction_ratio` of `dielectric::scatter`. -/
def dielectric.refraction_ratio (d : dielectric F) (rec : hit_record F) : F :=
  if rec.front_face then 1 / d.ir else d.ir

/-- The local `cos_theta` of `dielectric::scatter`. -/
def dielectric.cos_theta (m : cmath F) (r_in : ray F) (rec : hit_record F) : F :=
  fmin (dot (-(unit_vector m r_in.direction)) rec.normal) 1

/-- The method `dielectric::scatter`; `random_double` is the uniform draw the
reflectance is compared against. -/
def dielectric.scatter (m : cmath F) (d : dielectric F) (r_in : ray F) (rec : hit_record F)
    (_srec : scatter_record F) (random_double : F) : Option (scatter_record F) :=
  let refraction_ratio := d.refraction_ratio rec
  let unit_direction := unit_vector m r_in.direction
  let cos_theta := dielectric.cos_theta m r_in rec
  let sin_theta := m.sqrt (1 - cos_theta * cos_theta)
  let cannot_refract : Bool := decide (refraction_ratio * sin_theta > 1)
  let direction : vec3 F :=
    if cannot_refract || decide (dielectric.reflectance cos_theta refraction_ratio > random_double)
    then reflect unit_direction rec.normal
    else refract m unit_direction rec.normal refraction_ratio
  some
    { is_specular := true
      pdf_ptr := none
      attenuation := ⟨1, 1, 1⟩
      specular_ray := ⟨rec.p, direction, r_in.time⟩ }

/-- The method `diffuse_light::scatter`: `return false`. -/
def diffuse_light.scatter (_l : diffuse_light F) (_r_in : ray F) (_rec : hit_record F)
    (_srec : scatter_record F) : Option (scatter_record F) :=
  none

/-- The method `diffuse_light::emitted`. -/
def diffuse_light.emitted (l : diffuse_light F) (_r_in : ray F) (rec : hit_record F)
    (u v : F) (p : point3 F) : color F :=
  if rec.front_face then l.emit u v p else ⟨0, 0, 0⟩

/-- The method `isotropic::scatter`. -/
def isotropic.scatter (s : isotropic F) (_r_in : ray F) (rec : hit_record F)
    (srec : scatter_record F) : Option (scatter_record F) :=
  some { srec with
    is_specular := false
    attenuation := s.albedo rec.u rec.v rec.p
    pdf_ptr := some (pdf.cosine_pdf rec.normal) }

end Material

/-! ## constant_medium.h -/

/-- The class `constant_medium`. -/
structure constant_medium (F : Type) where
  boundary : hittable F
  phase_function : material F
  neg_inv_density : F

section ConstantMedium

variable {F : Type} [LinearOrderedField F]

/-- The constructor `constant_medium::constant_medium` from a texture. -/
def constant_medium.ctor (b : hittable F) (d : F) (a : texture F) : constant_medium F :=
  { boundary := b
    phase_function := material.isotropic ⟨a⟩
    neg_inv_density := -1 / d }

/-- The constructor `constant_medium::constant_medium` from a colour. -/
def constant_medium.ctor_color (b : hittable F) (d : F) (c : color F) : constant_medium F :=
  { boundary := b
    phase_function := material.isotropic ⟨solid_color c⟩
    neg_inv_density := -1 / d }

/-- The method `constant_medium::hit`.  `rec` is the caller's record, which the
method fills on a hit; `none` stands for `return false`; `random_double` is the
uniform draw of the free-flight sample (the debugging draw is compiled out,
`enableDebug` being `false`). -/
def constant_medium.hit (m : cmath F) (cm : constant_medium F) (r : ray F) (t_min t_max : F)
    (rec : hit_record F) (random_double : F) : Option (hit_record F) :=
  match cm.boundary r tbound.neg_infinity tbound.infinity with
  | none => none
  | some rec1 =>
    match cm.boundary r (tbound.finite (rec1.t + 0.0001)) tbound.infinity with
    | none => none
    | some rec2 =>
      let rec1 : hit_record F := if rec1.t < t_min then { rec1 with t := t_min } else rec1
      let rec2 : hit_record F := if rec2.t > t_max then { rec2 with t := t_max } else rec2
      if rec1.t ≥ rec2.t then none
      else
        let rec1 : hit_record F := if rec1.t < 0 then { rec1 with t := 0 } else rec1
        let ray_length := r.direction.length m
        let distance_inside_boundary := (rec2.t - rec1.t) * ray_length
        let hit_distance := cm.neg_inv_density * m.log random_double
        if hit_distance > distance_inside_boundary then none
        else
          let t := rec1.t + hit_distance / ray_length
          some { rec with
            t := t
            p := r.at t
            normal := ⟨1, 0, 0⟩
            front_face := true
            mat_ptr := some cm.phase_function }

/-- A boundary shape for worked examples: over the unrestricted interval it
answers `entry`, and over an interval with a finite or `+infinity` lower bound
it answers `exit`. -/
def example_boundary (entry exit : Option (hit_record F)) : hittable F :=
  fun _ lo _ =>
    match lo with
    | tbound.neg_infinity => entry
    | _ => exit

/-- The value `cmath.sqrt` returns at `x` is the exact non-negative square root of `x`. -/
def cmath.sqrt_exact_at (m : cmath F) (x : F) : Prop :=
  0 ≤ m.sqrt x ∧ m.sqrt x * m.sqrt x = x

end ConstantMedium

/-! ## integrate_x_sq.cpp -/

section IntegrateXSq

variable {F : Type} [LinearOrderedField F]

/-- The function `pdf` of `integrate_x_sq.cpp`: `3 * x * x / 8`. -/
def integrate_x_sq.pdf (x : F) : F := 3 * x * x / 8

/-- The loop of `main` over the samples `x` still to draw, each the cube root
of a uniform draw: `sum += x * x / pdf(x)`. -/
def integrate_x_sq.sum_loop : List F → F → F
  | [], sum => sum
  | x :: rest, sum => integrate_x_sq.sum_loop rest (sum + x * x / integrate_x_sq.pdf x)

/-- The estimate `main` prints, `sum / N`, where `N` is the number of samples
(the source sets `N = 1`). -/
def integrate_x_sq.main (xs : List F) : F :=
  integrate_x_sq.sum_loop xs 0 / (xs.length : F)

end IntegrateXSq

/-! ## Doubles with infinities and NaN, and `lambertian::scattering_pdf` on them -/

/-- A `double` once a division by zero can occur: a number of the field, one
of the two infinities, or NaN.  Rounding stays outside the model, and zero
carries no sign (it is read as `+0`, which is what `sqrt` and a sum of squares
return). -/
inductive xdouble (F : Type) where
  | num : F → xdouble F
  | pos_inf : xdouble F
  | neg_inf : xdouble F
  | nan : xdouble F
deriving DecidableEq, Repr

section XDouble

variable {F : Type} [LinearOrderedField F]

namespace xdouble

/-- The product of `+infinity` and the number `a`: the infinity with the sign
of `a`, and NaN for `a = 0`. -/
def inf_of_sign (a : F) : xdouble F :=
  if 0 < a then pos_inf else if a < 0 then neg_inf else nan

/-- The IEEE product `a * b`. -/
def mul : xdouble F → xdouble F → xdouble F
  | num a, num b => num (a * b)
  | num a, pos_inf => inf_of_sign a
  | num a, neg_inf => inf_of_sign (-a)
  | pos_inf, num b => inf_of_sign b
  | neg_inf, num b => inf_of_sign (-b)
  | pos_inf, pos_inf => pos_inf
  | pos_inf, neg_inf => neg_inf
  | neg_inf, pos_inf => neg_inf
  | neg_inf, neg_inf => pos_inf
  | nan, _ => nan
  | _, nan => nan

/-- The IEEE sum `a + b`. -/
def add : xdouble F → xdouble F → xdouble F
  | num a, num b => num (a + b)
  | num _, pos_inf => pos_inf
  | num _, neg_inf => neg_inf
  | pos_inf, num _ => pos_inf
  | neg_inf, num _ => neg_inf
  | pos_inf, pos_inf => pos_inf
  | neg_inf, neg_inf => neg_inf
  | pos_inf, neg_inf => nan
  | neg_inf, pos_inf => nan
  | nan, _ => nan
  | _, nan => nan

/-- The IEEE quotient `a / b`: a non-zero number over zero is an infinity,
`0 / 0` and `infinity / infinity` are NaN. -/
def div : xdouble F → xdouble F → xdouble F
  | num a, num b => if b = 0 then inf_of_sign a else num (a / b)
  | num _, pos_inf => num 0
  | num _, neg_inf => num 0
  | pos_inf, num b => if 0 ≤ b then pos_inf else neg_inf
  | neg_inf, num b => if 0 ≤ b then neg_inf else pos_inf
  | pos_inf, pos_inf => nan
  | pos_inf, neg_inf => nan
  | neg_inf, pos_inf => nan
  | neg_inf, neg_inf => nan
  | nan, _ => nan
  | _, nan => nan

/-- The IEEE comparison `a < b`: false as soon as one side is NaN. -/
def lt : xdouble F → xdouble F → Bool
  | num a, num b => decide (a < b)
  | num _, pos_inf => true
  | num _, neg_inf => false
  | pos_inf, _ => false
  | neg_inf, num _ => true
  | neg_inf, pos_inf => true
  | neg_inf, neg_inf => false
  | neg_inf, nan => false
  | nan, _ => false
  | num _, nan => false

/-- The IEEE comparison `a <= b`: false as soon as one side is NaN. -/
def le : xdouble F → xdouble F → Bool
  | num a, num b => decide (a ≤ b)
  | num _, pos_inf => true
  | num _, neg_inf => false
  | pos_inf, pos_inf => true
  | pos_inf, num _ => false
  | pos_inf, neg_inf => false
  | pos_inf, nan => false
  | neg_inf, num _ => true
  | neg_inf, pos_inf => true
  | neg_inf, neg_inf => true
  | neg_inf, nan => false
  | nan, _ => false
  | num _, nan => false

/-- A vector of numbers as a vector of doubles. -/
def of_vec3 (v : vec3 F) : vec3 (xdouble F) :=
  ⟨num v.e0, num v.e1, num v.e2⟩

/-- The scaling `operator*(double t, const vec3 &u)` of `vec3.h`:
`vec3(u.e[0] * t, u.e[1] * t, u.e[2] * t)`. -/
def scale (t : xdouble F) (u : vec3 (xdouble F)) : vec3 (xdouble F) :=
  ⟨mul u.e0 t, mul u.e1 t, mul u.e2 t⟩

/-- The division `operator/(const vec3 &u, double t)` of `vec3.h`: `(1 / t) * u`. -/
def vdiv (u : vec3 (xdouble F)) (t : xdouble F) : vec3 (xdouble F) :=
  scale (div (num 1) t) u

/-- The function `dot` of `vec3.h`. -/
def dot (u v : vec3 (xdouble F)) : xdouble F :=
  add (add (mul u.e0 v.e0) (mul u.e1 v.e1)) (mul u.e2 v.e2)

/-- The function `unit_vector` of `vec3.h`: `v / v.length()`. -/
def unit_vector (m : cmath F) (v : vec3 F) : vec3 (xdouble F) :=
  vdiv (of_vec3 v) (num (v.length m))

end xdouble

/-- The method `lambertian::scattering_pdf` on doubles with infinities and NaN;
`pi` is the constant of `rtweekend.h`. -/
def lambertian.scattering_pdf_ieee (m : cmath F) (pi : F) (_l : lambertian F) (_r_in : ray F)
    (rec : hit_record F) (scattered : ray F) : xdouble F :=
  let cosine := xdouble.dot (xdouble.of_vec3 rec.normal)
    (xdouble.unit_vector m scattered.direction)
  if xdouble.lt cosine (xdouble.num 0) = true then xdouble.num 0
  else xdouble.div cosine (xdouble.num pi)

end XDouble

/-! ## Lemmas on the slab test of aabb.h -/

section AabbLemmas

variable {F : Type} [LinearOrderedField F]

theorem ite_gt_eq_max (a b : F) : (if a > b then a else b) = max b a := by
  by_cases h : a > b
  · rw [if_pos h, max_eq_right (le_of_lt h)]
  · rw [if_neg h, max_eq_left (not_lt.mp h)]

theorem ite_lt_eq_min (a b : F) : (if a < b then a else b) = min b a := by
  by_cases h : a < b
  · rw [if_pos h, min_eq_right (le_of_lt h)]
  · rw [if_neg h, min_eq_left (not_lt.mp h)]

theorem vec3.idx_at (r : ray F) (t : F) (i : Nat) :
    (r.at t).idx i = r.origin.idx i + r.direction.idx i * t := by
  rcases i with _ | _ | i <;> rfl

theorem aabb.hit_axis_fst_ge (b : aabb F) (r : ray F) (i : Nat) (t_min t_max : F) :
    t_min ≤ (b.hit_axis r i t_min t_max).1 := by
  simp only [aabb.hit_axis, ite_gt_eq_max]
  exact le_max_left _ _

theorem aabb.hit_axis_snd_le (b : aabb F) (r : ray F) (i : Nat) (t_min t_max : F) :
    (b.hit_axis r i t_min t_max).2 ≤ t_max := by
  simp only [aabb.hit_axis, ite_lt_eq_min]
  exact min_le_left _ _

/-- One axis of the slab test keeps exactly the parameters inside the old
interval at which the ray is strictly between the two planes of that axis. -/
theorem aabb.hit_axis_between_iff (b : aabb F) (r : ray F) (i : Nat) (t_min t_max t : F)
    (hd : r.direction.idx i ≠ 0) :
    ((b.hit_axis r i t_min t_max).1 < t ∧ t < (b.hit_axis r i t_min t_max).2) ↔
      (t_min < t ∧ t < t_max) ∧
        (b.minimum.idx i < (r.at t).idx i ∧ (r.at t).idx i < b.maximum.idx i) := by
  simp only [aabb.hit_axis, ite_gt_eq_max, ite_lt_eq_min, max_lt_iff, lt_min_iff,
    vec3.idx_at, aabb.min, aabb.max, mul_one_div]
  rcases lt_or_gt_of_ne hd with hneg | hpos
  · have hinv : 1 / r.direction.idx i < 0 := one_div_neg.mpr hneg
    simp only [if_pos hinv]
    simp only [div_lt_iff_of_neg hneg, lt_div_iff_of_neg hneg]
    constructor
    · rintro ⟨⟨h1, h2⟩, h3, h4⟩
      exact ⟨⟨h1, h3⟩, by linarith, by linarith⟩
    · rintro ⟨⟨h1, h3⟩, h5, h6⟩
      exact ⟨⟨h1, by linarith⟩, h3, by linarith⟩
  · have hinv : ¬ 1 / r.direction.idx i < 0 := not_lt.mpr (le_of_lt (one_div_pos.mpr hpos))
    simp only [if_neg hinv]
    simp only [div_lt_iff₀ hpos, lt_div_iff₀ hpos]
    constructor
    · rintro ⟨⟨h1, h2⟩, h3, h4⟩
      exact ⟨⟨h1, h3⟩, by linarith, by linarith⟩
    · rintro ⟨⟨h1, h3⟩, h5, h6⟩
      exact ⟨⟨h1, by linarith⟩, h3, by linarith⟩

theorem aabb.shrink_all_fst_ge (b : aabb F) (r : ray F) (axes : List Nat) (t_min t_max : F) :
    t_min ≤ (b.shrink_all r axes t_min t_max).1 := by
  induction axes generalizing t_min t_max with
  | nil => exact le_refl _
  | cons i rest ih =>
    exact le_trans (aabb.hit_axis_fst_ge b r i t_min t_max) (ih _ _)

theorem aabb.shrink_all_snd_le (b : aabb F) (r : ray F) (axes : List Nat) (t_min t_max : F) :
    (b.shrink_all r axes t_min t_max).2 ≤ t_max := by
  induction axes generalizing t_min t_max with
  | nil => exact le_refl _
  | cons i rest ih =>
    exact le_trans (ih _ _) (aabb.hit_axis_snd_le b r i t_min t_max)

/-- Started on a non-empty interval, the loop with the early exit answers
`true` exactly when the interval shrunk over all the axes is still non-empty. -/
theorem aabb.hit_loop_iff_of_lt (b : aabb F) (r : ray F) (axes : List Nat) (t_min t_max : F)
    (h : t_min < t_max) :
    b.hit_loop r axes t_min t_max = true ↔
      (b.shrink_all r axes t_min t_max).1 < (b.shrink_all r axes t_min t_max).2 := by
  induction axes generalizing t_min t_max with
  | nil => simp [aabb.hit_loop, aabb.shrink_all, h]
  | cons i rest ih =>
    simp only [aabb.hit_loop, aabb.shrink_all]
    by_cases hle : (b.hit_axis r i t_min t_max).2 ≤ (b.hit_axis r i t_min t_max).1
    · rw [if_pos hle]
      have h1 := aabb.shrink_all_fst_ge b r rest (b.hit_axis r i t_min t_max).1
        (b.hit_axis r i t_min t_max).2
      have h2 := aabb.shrink_all_snd_le b r rest (b.hit_axis r i t_min t_max).1
        (b.hit_axis r i t_min t_max).2
      constructor
      · intro hf
        exact absurd hf (by simp)
      · intro hlt
        exact absurd (lt_of_le_of_lt h1 (lt_of_lt_of_le hlt h2)) (not_lt.mpr hle)
    · rw [if_neg hle]
      exact ih _ _ (not_le.mp hle)

/-- The loop over a non-empty list of axes answers `true` exactly when the
interval shrunk over all the axes is non-empty, whatever interval it starts on. -/
theorem aabb.hit_loop_cons_iff (b : aabb F) (r : ray F) (i : Nat) (rest : List Nat)
    (t_min t_max : F) :
    b.hit_loop r (i :: rest) t_min t_max = true ↔
      (b.shrink_all r (i :: rest) t_min t_max).1 < (b.shrink_all r (i :: rest) t_min t_max).2 := by
  simp only [aabb.hit_loop, aabb.shrink_all]
  by_cases hle : (b.hit_axis r i t_min t_max).2 ≤ (b.hit_axis r i t_min t_max).1
  · rw [if_pos hle]
    have h1 := aabb.shrink_all_fst_ge b r rest (b.hit_axis r i t_min t_max).1
      (b.hit_axis r i t_min t_max).2
    have h2 := aabb.shrink_all_snd_le b r rest (b.hit_axis r i t_min t_max).1
      (b.hit_axis r i t_min t_max).2
    constructor
    · intro hf
      exact absurd hf (by simp)
    · intro hlt
      exact absurd (lt_of_le_of_lt h1 (lt_of_lt_of_le hlt h2)) (not_lt.mpr hle)
  · rw [if_neg hle]
    exact aabb.hit_loop_iff_of_lt b r rest _ _ (not_le.mp hle)

/-- The parameters strictly inside the interval shrunk over a list of axes are
those strictly inside the starting interval at which the ray is strictly
between the planes of every listed axis. -/
theorem aabb.shrink_all_between_iff (b : aabb F) (r : ray F) (axes : List Nat)
    (t_min t_max t : F) (hd : ∀ i ∈ axes, r.direction.idx i ≠ 0) :
    ((b.shrink_all r axes t_min t_max).1 < t ∧ t < (b.shrink_all r axes t_min t_max).2) ↔
      (t_min < t ∧ t < t_max) ∧
        ∀ i ∈ axes, b.minimum.idx i < (r.at t).idx i ∧ (r.at t).idx i < b.maximum.idx i := by
  induction axes generalizing t_min t_max with
  | nil => simp [aabb.shrink_all]
  | cons i rest ih =>
    simp only [aabb.shrink_all]
    rw [ih _ _ (fun j hj => hd j (List.mem_cons_of_mem _ hj)),
      aabb.hit_axis_between_iff b r i t_min t_max t (hd i (List.mem_cons_self _ _))]
    simp only [List.mem_cons, forall_eq_or_imp]
    tauto

/-- The exact answer of `aabb::hit` on a ray whose direction has no zero
component: some parameter strictly inside the interval puts the ray strictly
inside the box. -/
theorem aabb.hit_iff_exists_open (b : aabb F) (r : ray F) (t_min t_max : F)
    (hd : ∀ i : Nat, i < 3 → r.direction.idx i ≠ 0) :
    b.hit r t_min t_max = true ↔
      ∃ t : F, t_min < t ∧ t < t_max ∧ b.contains_open (r.at t) := by
  have hd3 : ∀ i ∈ [0, 1, 2], r.direction.idx i ≠ 0 := by
    intro i hi
    simp only [List.mem_cons, List.mem_singleton, List.not_mem_nil, or_false] at hi
    rcases hi with rfl | rfl | rfl
    · exact hd 0 (by norm_num)
    · exact hd 1 (by norm_num)
    · exact hd 2 (by norm_num)
  have hopen : ∀ t : F, b.contains_open (r.at t) ↔
      ∀ i ∈ [0, 1, 2], b.minimum.idx i < (r.at t).idx i ∧ (r.at t).idx i < b.maximum.idx i := by
    intro t
    simp only [aabb.contains_open, List.mem_cons, List.mem_singleton, List.not_mem_nil, or_false]
    constructor
    · intro h i hi
      rcases hi with rfl | rfl | rfl
      · exact h 0 (by norm_num)
      · exact h 1 (by norm_num)
      · exact h 2 (by norm_num)
    · intro h i hi
      have : i = 0 ∨ i = 1 ∨ i = 2 := by omega
      exact h i this
  rw [aabb.hit, aabb.hit_loop_cons_iff]
  constructor
  · intro hlt
    obtain ⟨t, h1, h2⟩ := exists_between hlt
    obtain ⟨⟨h3, h4⟩, h5⟩ := (aabb.shrink_all_between_iff b r [0, 1, 2] t_min t_max t hd3).mp ⟨h1, h2⟩
    exact ⟨t, h3, h4, (hopen t).mpr h5⟩
  · rintro ⟨t, h3, h4, h5⟩
    obtain ⟨h1, h2⟩ :=
      (aabb.shrink_all_between_iff b r [0, 1, 2] t_min t_max t hd3).mpr ⟨⟨h3, h4⟩, (hopen t).mp h5⟩
    exact lt_trans h1 h2

theorem vec3.idx_neg (v : vec3 F) (i : Nat) : (-v).idx i = -(v.idx i) := by
  rcases i with _ | _ | i <;> rfl

/-- Reversing the direction and negating the parameter gives the same point. -/
theorem vec3.idx_at_reverse (o d : vec3 F) (tm tm' t : F) (i : Nat) :
    ((⟨o, -d, tm'⟩ : ray F).at (-t)).idx i = ((⟨o, d, tm⟩ : ray F).at t).idx i := by
  rw [vec3.idx_at, vec3.idx_at]
  simp only [ray.origin, ray.direction, vec3.idx_neg]
  ring

end AabbLemmas

/-! ## Theorems on aabb.h -/

section AabbTheorems

variable {F : Type} [LinearOrderedField F]

/-- C1, evaluated where the code departs from it: for the boxes with corners
(0,0,0)-(1,1,1) and (0,0,0)-(2,2,2), `surrounding_box` returns the maximum
corner (1,1,1), taken with `fmin`, so the result does not enclose the second
box, whose maximum corner is (2,2,2). -/
theorem surrounding_box_does_not_enclose :
    (surrounding_box (⟨⟨0, 0, 0⟩, ⟨1, 1, 1⟩⟩ : aabb ℚ) ⟨⟨0, 0, 0⟩, ⟨2, 2, 2⟩⟩).maximum
        = ⟨1, 1, 1⟩ ∧
      ¬ (surrounding_box (⟨⟨0, 0, 0⟩, ⟨1, 1, 1⟩⟩ : aabb ℚ) ⟨⟨0, 0, 0⟩, ⟨2, 2, 2⟩⟩).encloses
          ⟨⟨0, 0, 0⟩, ⟨2, 2, 2⟩⟩ := by
  constructor
  · simp [surrounding_box, fmin, aabb.max, vec3.x, vec3.y, vec3.z]
  · intro h
    have h0 := (h 0 (by norm_num)).2
    simp [surrounding_box, fmin, aabb.max, vec3.x, vec3.idx] at h0

/-- C2 as stated fails: the ray from (2,0,0) along (-1,1,1) meets the closed
box (0,0,0)-(1,1,1) at the corner (1,1,1), at `t = 1` inside `[0, 10]`, yet
`aabb::hit` answers `false`. -/
theorem aabb_hit_closed_counterexample :
    ¬ ((⟨⟨0, 0, 0⟩, ⟨1, 1, 1⟩⟩ : aabb ℚ).hit ⟨⟨2, 0, 0⟩, ⟨-1, 1, 1⟩, 0⟩ 0 10 = true ↔
        ∃ t : ℚ, 0 ≤ t ∧ t ≤ 10 ∧
          (⟨⟨0, 0, 0⟩, ⟨1, 1, 1⟩⟩ : aabb ℚ).contains_closed
            ((⟨⟨2, 0, 0⟩, ⟨-1, 1, 1⟩, 0⟩ : ray ℚ).at t)) := by
  intro h
  have hfalse : (⟨⟨0, 0, 0⟩, ⟨1, 1, 1⟩⟩ : aabb ℚ).hit ⟨⟨2, 0, 0⟩, ⟨-1, 1, 1⟩, 0⟩ 0 10 = false := by
    norm_num [aabb.hit, aabb.hit_loop, aabb.hit_axis, aabb.min, aabb.max, ray.origin,
      ray.direction, vec3.idx]
  have htrue := h.mpr ⟨1, by norm_num, by norm_num, by
    intro i hi
    rw [vec3.idx_at]
    interval_cases i <;> norm_num [vec3.idx, ray.origin, ray.direction]⟩
  rw [hfalse] at htrue
  exact absurd htrue (by simp)

/-- C2, amended: on a ray whose direction has no zero component, `aabb::hit`
answers `true` exactly when some `t` with `t_min < t < t_max` puts
`origin + t * direction` strictly inside the box (`minimum < point < maximum`
on every axis). -/
theorem aabb_hit_iff_open_interval_meets_open_box (b : aabb F) (r : ray F) (t_min t_max : F)
    (hd : ∀ i : Nat, i < 3 → r.direction.idx i ≠ 0) :
    b.hit r t_min t_max = true ↔
      ∃ t : F, t_min < t ∧ t < t_max ∧ b.contains_open (r.at t) :=
  aabb.hit_iff_exists_open b r t_min t_max hd

/-- C2, amended, at the box (0,0,0)-(1,1,1) and the ray from (-1,0,1) along (2,1,-1). -/
theorem aabb_hit_iff_open_interval_meets_open_box_witness :
    (∀ i : Nat, i < 3 → (⟨⟨-1, 0, 1⟩, ⟨2, 1, -1⟩, 0⟩ : ray ℚ).direction.idx i ≠ 0) ∧
      ((⟨⟨0, 0, 0⟩, ⟨1, 1, 1⟩⟩ : aabb ℚ).hit ⟨⟨-1, 0, 1⟩, ⟨2, 1, -1⟩, 0⟩ 0 10 = true ↔
        ∃ t : ℚ, 0 < t ∧ t < 10 ∧
          (⟨⟨0, 0, 0⟩, ⟨1, 1, 1⟩⟩ : aabb ℚ).contains_open
            ((⟨⟨-1, 0, 1⟩, ⟨2, 1, -1⟩, 0⟩ : ray ℚ).at t)) :=
  have hd : ∀ i : Nat, i < 3 → (⟨⟨-1, 0, 1⟩, ⟨2, 1, -1⟩, 0⟩ : ray ℚ).direction.idx i ≠ 0 := by
    intro i hi
    interval_cases i <;> norm_num [vec3.idx, ray.direction]
  ⟨hd, aabb_hit_iff_open_interval_meets_open_box _ _ 0 10 hd⟩

/-- C3: leaving the loop of `aabb::hit` early is not observable.  For every box,
ray and `t_min`, `t_max`, the loop with the early `return false` gives the same
boolean as shrinking the interval over all three axes and only then answering
`false` when the final `t_max <= t_min`.  No condition on the direction is
needed, so the rays with non-zero direction components are covered. -/
theorem aabb_hit_eq_hit_no_early_exit (b : aabb F) (r : ray F) (t_min t_max : F) :
    b.hit r t_min t_max = b.hit_no_early_exit r t_min t_max := by
  rw [Bool.eq_iff_iff, aabb.hit, aabb.hit_loop_cons_iff, aabb.hit_no_early_exit]
  by_cases h : (b.shrink_all r [0, 1, 2] t_min t_max).2 ≤ (b.shrink_all r [0, 1, 2] t_min t_max).1
  · simp [h, not_lt.mpr h]
  · simp [h, not_le.mp h]

/-- C4: slab test symmetry.  For every box, every ray with origin `o` and
direction `d` without zero component, and every `t_min`, `t_max`, the answer of
`aabb::hit` on `ray(o, d)` over `(t_min, t_max)` equals its answer on
`ray(o, -d)` over `(-t_max, -t_min)`. -/
theorem aabb_hit_reverse_symmetry (b : aabb F) (o d : vec3 F) (tm tm' t_min t_max : F)
    (hd : ∀ i : Nat, i < 3 → d.idx i ≠ 0) :
    b.hit ⟨o, d, tm⟩ t_min t_max = b.hit ⟨o, -d, tm'⟩ (-t_max) (-t_min) := by
  have hd' : ∀ i : Nat, i < 3 → (⟨o, -d, tm'⟩ : ray F).direction.idx i ≠ 0 := by
    intro i hi
    simp only [ray.direction, vec3.idx_neg]
    exact neg_ne_zero.mpr (hd i hi)
  rw [Bool.eq_iff_iff, aabb.hit_iff_exists_open b ⟨o, d, tm⟩ t_min t_max hd,
    aabb.hit_iff_exists_open b ⟨o, -d, tm'⟩ (-t_max) (-t_min) hd']
  constructor
  · rintro ⟨t, h1, h2, h3⟩
    refine ⟨-t, by linarith, by linarith, ?_⟩
    intro i hi
    rw [vec3.idx_at_reverse o d tm tm' t i]
    exact h3 i hi
  · rintro ⟨t, h1, h2, h3⟩
    refine ⟨-t, by linarith, by linarith, ?_⟩
    intro i hi
    have := h3 i hi
    rw [← vec3.idx_at_reverse o d tm tm' (-t) i, neg_neg]
    exact this

/-- C4 at the box (0,0,0)-(1,1,1), the origin (-1,0,1) and the direction
(2,1,-1), over the interval from 0 to 10. -/
theorem aabb_hit_reverse_symmetry_witness :
    (∀ i : Nat, i < 3 → (⟨2, 1, -1⟩ : vec3 ℚ).idx i ≠ 0) ∧
      (⟨⟨0, 0, 0⟩, ⟨1, 1, 1⟩⟩ : aabb ℚ).hit ⟨⟨-1, 0, 1⟩, ⟨2, 1, -1⟩, 0⟩ 0 10 =
        (⟨⟨0, 0, 0⟩, ⟨1, 1, 1⟩⟩ : aabb ℚ).hit ⟨⟨-1, 0, 1⟩, -⟨2, 1, -1⟩, 0⟩ (-10) (-0) :=
  have hd : ∀ i : Nat, i < 3 → (⟨2, 1, -1⟩ : vec3 ℚ).idx i ≠ 0 := by
    intro i hi
    interval_cases i <;> norm_num [vec3.idx]
  ⟨hd, aabb_hit_reverse_symmetry _ _ _ 0 0 0 10 hd⟩

end AabbTheorems

/-! ## Lemmas on vec3.h -/

theorem vec3.eq_of_components {F : Type} {u v : vec3 F} (h0 : u.e0 = v.e0) (h1 : u.e1 = v.e1)
    (h2 : u.e2 = v.e2) : u = v := by
  cases u
  cases v
  simp only [vec3.mk.injEq]
  exact ⟨h0, h1, h2⟩

section Vec3Lemmas

variable {F : Type} [LinearOrderedField F]

@[simp] theorem vec3.add_e0 (u v : vec3 F) : (u + v).e0 = u.e0 + v.e0 := rfl

@[simp] theorem vec3.add_e1 (u v : vec3 F) : (u + v).e1 = u.e1 + v.e1 := rfl

@[simp] theorem vec3.add_e2 (u v : vec3 F) : (u + v).e2 = u.e2 + v.e2 := rfl

@[simp] theorem vec3.sub_e0 (u v : vec3 F) : (u - v).e0 = u.e0 - v.e0 := rfl

@[simp] theorem vec3.sub_e1 (u v : vec3 F) : (u - v).e1 = u.e1 - v.e1 := rfl

@[simp] theorem vec3.sub_e2 (u v : vec3 F) : (u - v).e2 = u.e2 - v.e2 := rfl

@[simp] theorem vec3.neg_e0 (u : vec3 F) : (-u).e0 = -u.e0 := rfl

@[simp] theorem vec3.neg_e1 (u : vec3 F) : (-u).e1 = -u.e1 := rfl

@[simp] theorem vec3.neg_e2 (u : vec3 F) : (-u).e2 = -u.e2 := rfl

@[simp] theorem vec3.smul_e0 (t : F) (u : vec3 F) : (t * u).e0 = u.e0 * t := rfl

@[simp] theorem vec3.smul_e1 (t : F) (u : vec3 F) : (t * u).e1 = u.e1 * t := rfl

@[simp] theorem vec3.smul_e2 (t : F) (u : vec3 F) : (t * u).e2 = u.e2 * t := rfl

@[simp] theorem vec3.div_e0 (u : vec3 F) (t : F) : (u / t).e0 = u.e0 * (1 / t) := rfl

@[simp] theorem vec3.div_e1 (u : vec3 F) (t : F) : (u / t).e1 = u.e1 * (1 / t) := rfl

@[simp] theorem vec3.div_e2 (u : vec3 F) (t : F) : (u / t).e2 = u.e2 * (1 / t) := rfl

@[simp] theorem vec3.at_e0 (r : ray F) (t : F) : (r.at t).e0 = r.orig.e0 + r.dir.e0 * t := rfl

@[simp] theorem vec3.at_e1 (r : ray F) (t : F) : (r.at t).e1 = r.orig.e1 + r.dir.e1 * t := rfl

@[simp] theorem vec3.at_e2 (r : ray F) (t : F) : (r.at t).e2 = r.orig.e2 + r.dir.e2 * t := rfl

/-- The dot product with a normalised vector is the dot product divided by the length. -/
theorem dot_unit_vector (m : cmath F) (n v : vec3 F) :
    dot n (unit_vector m v) = dot n v / v.length m := by
  simp only [dot, unit_vector, vec3.div_e0, vec3.div_e1, vec3.div_e2]
  ring

/-- A vector other than zero has a positive squared length. -/
theorem vec3.length_squared_pos (v : vec3 F) (hv : v ≠ ⟨0, 0, 0⟩) : 0 < v.length_squared := by
  have h : v.e0 ≠ 0 ∨ v.e1 ≠ 0 ∨ v.e2 ≠ 0 := by
    by_contra hc
    push_neg at hc
    exact hv (vec3.eq_of_components hc.1 hc.2.1 hc.2.2)
  simp only [vec3.length_squared]
  rcases h with h | h | h
  · nlinarith [mul_self_pos.mpr h, mul_self_nonneg v.e1, mul_self_nonneg v.e2]
  · nlinarith [mul_self_pos.mpr h, mul_self_nonneg v.e0, mul_self_nonneg v.e2]
  · nlinarith [mul_self_pos.mpr h, mul_self_nonneg v.e0, mul_self_nonneg v.e1]

/-- Where the square root is exact, a vector other than zero has a positive length. -/
theorem vec3.length_pos (m : cmath F) (v : vec3 F) (hv : v ≠ ⟨0, 0, 0⟩)
    (hs : m.sqrt_exact_at v.length_squared) : 0 < v.length m := by
  have hpos := vec3.length_squared_pos v hv
  rcases lt_or_eq_of_le hs.1 with h | h
  · exact h
  · exfalso
    have h2 := hs.2
    rw [← h] at h2
    simp only [mul_zero] at h2
    exact absurd h2 (ne_of_lt hpos)

end Vec3Lemmas

/-! ## Theorems on material.h -/

section MaterialTheorems

variable {F : Type} [LinearOrderedField F]

/-- On the exact reading of doubles: when the outgoing direction has a positive
length and `pi` is positive, the value of `lambertian::scattering_pdf` is at
least 0, and it is 0 exactly when `dot(normal, direction) <= 0`. -/
theorem lambertian.scattering_pdf_exact_spec (m : cmath F) (pi : F) (l : lambertian F)
    (r_in : ray F) (rec : hit_record F) (scattered : ray F)
    (hpi : 0 < pi) (hlen : 0 < scattered.direction.length m) :
    0 ≤ l.scattering_pdf m pi r_in rec scattered ∧
      (l.scattering_pdf m pi r_in rec scattered = 0 ↔
        dot rec.normal scattered.direction ≤ 0) := by
  simp only [lambertian.scattering_pdf, dot_unit_vector]
  by_cases hneg : dot rec.normal scattered.direction / scattered.direction.length m < 0
  · rw [if_pos hneg]
    have h : dot rec.normal scattered.direction < 0 := by
      rcases div_neg_iff.mp hneg with ⟨_, h2⟩ | ⟨h1, _⟩
      · exact absurd hlen (not_lt.mpr (le_of_lt h2))
      · exact h1
    exact ⟨le_refl _, ⟨fun _ => le_of_lt h, fun _ => rfl⟩⟩
  · rw [if_neg hneg]
    have hnn : 0 ≤ dot rec.normal scattered.direction / scattered.direction.length m :=
      not_lt.mp hneg
    have hdn : 0 ≤ dot rec.normal scattered.direction := by
      rcases div_nonneg_iff.mp hnn with ⟨h1, _⟩ | ⟨_, h2⟩
      · exact h1
      · exact absurd hlen (not_lt.mpr h2)
    refine ⟨div_nonneg hnn (le_of_lt hpi), ?_⟩
    rw [div_eq_zero_iff, div_eq_zero_iff]
    constructor
    · rintro ((h | h) | h)
      · exact le_of_eq h
      · exact absurd h (ne_of_gt hlen)
      · exact absurd h (ne_of_gt hpi)
    · intro h
      exact Or.inl (Or.inl (le_antisymm h hdn))

/-- With a length and a `pi` other than zero no division by zero occurs, and
`lambertian::scattering_pdf` returns the number the exact reading gives. -/
theorem lambertian.scattering_pdf_ieee_eq_num (m : cmath F) (pi : F) (l : lambertian F)
    (r_in : ray F) (rec : hit_record F) (scattered : ray F)
    (hpi : pi ≠ 0) (hlen : scattered.direction.length m ≠ 0) :
    l.scattering_pdf_ieee m pi r_in rec scattered =
      xdouble.num (l.scattering_pdf m pi r_in rec scattered) := by
  simp only [lambertian.scattering_pdf_ieee, lambertian.scattering_pdf, xdouble.unit_vector,
    xdouble.vdiv, xdouble.scale, xdouble.of_vec3, xdouble.dot, xdouble.div, xdouble.mul,
    xdouble.add, xdouble.lt, if_neg hlen, dot, unit_vector, vec3.div_e0, vec3.div_e1,
    vec3.div_e2, decide_eq_true_eq]
  by_cases hc : rec.normal.e0 * (scattered.direction.e0 * (1 / scattered.direction.length m)) +
      rec.normal.e1 * (scattered.direction.e1 * (1 / scattered.direction.length m)) +
      rec.normal.e2 * (scattered.direction.e2 * (1 / scattered.direction.length m)) < 0
  · rw [if_pos hc, if_pos hc]
  · rw [if_neg hc, if_neg hc]
    simp only [xdouble.div, if_neg hpi]

/-- C7 as stated fails: for the normal (0,0,1) and the outgoing direction
(0,0,0), of length 0, `unit_vector` multiplies 0 by `1 / 0` and
`lambertian::scattering_pdf` returns NaN, which is neither at least 0 nor equal
to 0, although `dot(normal, direction) = 0 <= 0`. -/
theorem lambertian_scattering_pdf_zero_direction_counterexample :
    (⟨solid_color ⟨1, 1, 1⟩⟩ : lambertian ℝ).scattering_pdf_ieee ⟨Real.sqrt, Real.log⟩ Real.pi
          ⟨⟨0, 0, 0⟩, ⟨0, 0, -1⟩, 0⟩ ⟨⟨0, 0, 0⟩, ⟨0, 0, 1⟩, none, 1, 0, 0, true⟩
          ⟨⟨0, 0, 0⟩, ⟨0, 0, 0⟩, 0⟩ = xdouble.nan ∧
      ¬ (xdouble.le (xdouble.num 0)
            ((⟨solid_color ⟨1, 1, 1⟩⟩ : lambertian ℝ).scattering_pdf_ieee ⟨Real.sqrt, Real.log⟩
              Real.pi ⟨⟨0, 0, 0⟩, ⟨0, 0, -1⟩, 0⟩ ⟨⟨0, 0, 0⟩, ⟨0, 0, 1⟩, none, 1, 0, 0, true⟩
              ⟨⟨0, 0, 0⟩, ⟨0, 0, 0⟩, 0⟩) = true ∧
          ((⟨solid_color ⟨1, 1, 1⟩⟩ : lambertian ℝ).scattering_pdf_ieee ⟨Real.sqrt, Real.log⟩
              Real.pi ⟨⟨0, 0, 0⟩, ⟨0, 0, -1⟩, 0⟩ ⟨⟨0, 0, 0⟩, ⟨0, 0, 1⟩, none, 1, 0, 0, true⟩
              ⟨⟨0, 0, 0⟩, ⟨0, 0, 0⟩, 0⟩ = xdouble.num 0 ↔
            dot (⟨⟨0, 0, 0⟩, ⟨0, 0, 1⟩, none, 1, 0, 0, true⟩ : hit_record ℝ).normal
              (⟨⟨0, 0, 0⟩, ⟨0, 0, 0⟩, 0⟩ : ray ℝ).direction ≤ 0)) := by
  have hnan : (⟨solid_color ⟨1, 1, 1⟩⟩ : lambertian ℝ).scattering_pdf_ieee
      ⟨Real.sqrt, Real.log⟩ Real.pi ⟨⟨0, 0, 0⟩, ⟨0, 0, -1⟩, 0⟩
      ⟨⟨0, 0, 0⟩, ⟨0, 0, 1⟩, none, 1, 0, 0, true⟩ ⟨⟨0, 0, 0⟩, ⟨0, 0, 0⟩, 0⟩ = xdouble.nan := by
    simp [lambertian.scattering_pdf_ieee, xdouble.unit_vector, xdouble.vdiv, xdouble.scale,
      xdouble.of_vec3, xdouble.dot, xdouble.div, xdouble.mul, xdouble.add, xdouble.lt,
      xdouble.inf_of_sign, vec3.length, vec3.length_squared, ray.direction]
  refine ⟨hnan, ?_⟩
  rw [hnan]
  rintro ⟨hle, _⟩
  simp [xdouble.le] at hle

/-- C7, amended: for every hit normal and every outgoing ray whose direction
has a positive length, and for a positive constant `pi`, the value of
`lambertian::scattering_pdf` is at least 0, and it is 0 exactly when
`dot(normal, direction) <= 0`; it is the number the exact reading gives. -/
theorem lambertian_scattering_pdf_ieee_nonneg_and_zero_iff (m : cmath F) (pi : F)
    (l : lambertian F) (r_in : ray F) (rec : hit_record F) (scattered : ray F)
    (hpi : 0 < pi) (hlen : 0 < scattered.direction.length m) :
    xdouble.le (xdouble.num 0) (l.scattering_pdf_ieee m pi r_in rec scattered) = true ∧
      (l.scattering_pdf_ieee m pi r_in rec scattered = xdouble.num 0 ↔
        dot rec.normal scattered.direction ≤ 0) ∧
      l.scattering_pdf_ieee m pi r_in rec scattered =
        xdouble.num (l.scattering_pdf m pi r_in rec scattered) := by
  have heq := lambertian.scattering_pdf_ieee_eq_num m pi l r_in rec scattered (ne_of_gt hpi)
    (ne_of_gt hlen)
  have hspec := lambertian.scattering_pdf_exact_spec m pi l r_in rec scattered hpi hlen
  rw [heq]
  refine ⟨?_, ?_, rfl⟩
  · simp only [xdouble.le, decide_eq_true_eq]
    exact hspec.1
  · rw [xdouble.num.injEq]
    exact hspec.2

/-- C7, amended, over the reals, with the real square root and the real `pi`,
for the normal (0,0,1) and the outgoing direction (3,0,4), of length 5. -/
theorem lambertian_scattering_pdf_ieee_nonneg_and_zero_iff_witness :
    xdouble.le (xdouble.num 0)
        ((⟨solid_color ⟨1, 1, 1⟩⟩ : lambertian ℝ).scattering_pdf_ieee ⟨Real.sqrt, Real.log⟩
          Real.pi ⟨⟨0, 0, 0⟩, ⟨0, 0, -1⟩, 0⟩ ⟨⟨0, 0, 0⟩, ⟨0, 0, 1⟩, none, 1, 0, 0, true⟩
          ⟨⟨0, 0, 0⟩, ⟨3, 0, 4⟩, 0⟩) = true ∧
      ((⟨solid_color ⟨1, 1, 1⟩⟩ : lambertian ℝ).scattering_pdf_ieee ⟨Real.sqrt, Real.log⟩
          Real.pi ⟨⟨0, 0, 0⟩, ⟨0, 0, -1⟩, 0⟩ ⟨⟨0, 0, 0⟩, ⟨0, 0, 1⟩, none, 1, 0, 0, true⟩
          ⟨⟨0, 0, 0⟩, ⟨3, 0, 4⟩, 0⟩ = xdouble.num 0 ↔
        dot (⟨⟨0, 0, 0⟩, ⟨0, 0, 1⟩, none, 1, 0, 0, true⟩ : hit_record ℝ).normal
          (⟨⟨0, 0, 0⟩, ⟨3, 0, 4⟩, 0⟩ : ray ℝ).direction ≤ 0) :=
  have h := lambertian_scattering_pdf_ieee_nonneg_and_zero_iff
    (⟨Real.sqrt, Real.log⟩ : cmath ℝ) Real.pi (⟨solid_color ⟨1, 1, 1⟩⟩ : lambertian ℝ)
    ⟨⟨0, 0, 0⟩, ⟨0, 0, -1⟩, 0⟩ ⟨⟨0, 0, 0⟩, ⟨0, 0, 1⟩, none, 1, 0, 0, true⟩
    ⟨⟨0, 0, 0⟩, ⟨3, 0, 4⟩, 0⟩ Real.pi_pos
    (Real.sqrt_pos.mpr (by norm_num [vec3.length_squared, ray.direction]))
  ⟨h.1, h.2.1⟩

/-- C8: for every refractive index `ir > 0`, every cosine and both values of
`front_face`, the reflectance `dielectric::scatter` computes from its
refraction ratio (`1 / ir` on the front face, `ir` otherwise) is
`r0 + (1 - r0) * (1 - cosine)^5` with `r0 = ((1 - ir) / (1 + ir))^2`; in
particular `reflectance(c, 1 / ir) = reflectance(c, ir)`; so the ray
`dielectric::scatter` returns is the reflected one exactly when refraction is
impossible or that value of Schlick's formula at `cos_theta` exceeds the draw. -/
theorem dielectric_reflectance_of_refraction_ratio (m : cmath F) (d : dielectric F)
    (r_in : ray F) (rec : hit_record F) (srec : scatter_record F) (cosine U : F)
    (hir : 0 < d.ir) :
    dielectric.reflectance cosine (d.refraction_ratio rec) =
        ((1 - d.ir) / (1 + d.ir)) ^ 2 +
          (1 - ((1 - d.ir) / (1 + d.ir)) ^ 2) * (1 - cosine) ^ 5 ∧
      dielectric.reflectance cosine (1 / d.ir) = dielectric.reflectance cosine d.ir ∧
      d.scatter m r_in rec srec U =
        some
          { is_specular := true
            pdf_ptr := none
            attenuation := ⟨1, 1, 1⟩
            specular_ray :=
              ⟨rec.p,
                if (decide (d.refraction_ratio rec *
                        m.sqrt (1 - dielectric.cos_theta m r_in rec *
                          dielectric.cos_theta m r_in rec) > 1) ||
                    decide (((1 - d.ir) / (1 + d.ir)) ^ 2 +
                        (1 - ((1 - d.ir) / (1 + d.ir)) ^ 2) *
                          (1 - dielectric.cos_theta m r_in rec) ^ 5 > U)) = true
                then reflect (unit_vector m r_in.direction) rec.normal
                else refract m (unit_vector m r_in.direction) rec.normal (d.refraction_ratio rec),
                r_in.time⟩ } := by
  have h0 : d.ir ≠ 0 := ne_of_gt hir
  have h1 : 1 + d.ir ≠ 0 := ne_of_gt (by linarith)
  have h2 : 1 + 1 / d.ir ≠ 0 := ne_of_gt (by positivity)
  have hr : (1 - 1 / d.ir) / (1 + 1 / d.ir) = -((1 - d.ir) / (1 + d.ir)) := by
    rw [div_eq_iff h2]
    field_simp
    ring
  have hinv : dielectric.reflectance cosine (1 / d.ir) = dielectric.reflectance cosine d.ir := by
    simp only [dielectric.reflectance, hr]
    ring
  have hdirect : ∀ c : F, dielectric.reflectance c d.ir =
      ((1 - d.ir) / (1 + d.ir)) ^ 2 +
        (1 - ((1 - d.ir) / (1 + d.ir)) ^ 2) * (1 - c) ^ 5 := by
    intro c
    simp only [dielectric.reflectance]
    ring
  have hratio : ∀ c : F, dielectric.reflectance c (d.refraction_ratio rec) =
      ((1 - d.ir) / (1 + d.ir)) ^ 2 +
        (1 - ((1 - d.ir) / (1 + d.ir)) ^ 2) * (1 - c) ^ 5 := by
    intro c
    simp only [dielectric.refraction_ratio]
    by_cases hf : rec.front_face = true
    · rw [if_pos hf]
      simp only [dielectric.reflectance, hr]
      ring
    · rw [if_neg hf]
      exact hdirect c
  refine ⟨hratio cosine, hinv, ?_⟩
  simp only [dielectric.scatter, hratio]

/-- C8 over the reals for glass, `ir = 3/2`, hit on the front face along the
normal, at the cosine 1/2 and the draw 1/2. -/
theorem dielectric_reflectance_of_refraction_ratio_witness :
    dielectric.reflectance (1 / 2)
          ((⟨3 / 2⟩ : dielectric ℝ).refraction_ratio
            ⟨⟨0, 0, 0⟩, ⟨0, 0, 1⟩, none, 1, 0, 0, true⟩) =
        ((1 - (3 / 2 : ℝ)) / (1 + 3 / 2)) ^ 2 +
          (1 - ((1 - (3 / 2 : ℝ)) / (1 + 3 / 2)) ^ 2) * (1 - 1 / 2) ^ 5 ∧
      dielectric.reflectance (1 / 2) (1 / (3 / 2 : ℝ)) =
        dielectric.reflectance (1 / 2) (3 / 2 : ℝ) :=
  have h := dielectric_reflectance_of_refraction_ratio (⟨Real.sqrt, Real.log⟩ : cmath ℝ)
    (⟨3 / 2⟩ : dielectric ℝ) ⟨⟨0, 0, 1⟩, ⟨0, 0, -1⟩, 0⟩
    ⟨⟨0, 0, 0⟩, ⟨0, 0, 1⟩, none, 1, 0, 0, true⟩
    ⟨⟨⟨0, 0, 0⟩, ⟨0, 0, 0⟩, 0⟩, false, ⟨0, 0, 0⟩, none⟩ (1 / 2) (1 / 2) (by norm_num)
  ⟨h.1, h.2.1⟩

/-- C9: the end points of Schlick's reflectance.  For every `ref_idx` other
than -1, `reflectance(1, ref_idx)` is `r0 = ((1 - ref_idx) / (1 + ref_idx))^2`
and `reflectance(0, ref_idx)` is exactly 1. -/
theorem dielectric_reflectance_end_points (ref_idx : F) (_h : ref_idx ≠ -1) :
    dielectric.reflectance 1 ref_idx = ((1 - ref_idx) / (1 + ref_idx)) ^ 2 ∧
      dielectric.reflectance 0 ref_idx = 1 := by
  constructor
  · simp only [dielectric.reflectance]
    ring
  · simp only [dielectric.reflectance]
    ring

/-- C9 at `ior = 1.5`, where `r0 = 1/25`. -/
theorem dielectric_reflectance_end_points_witness :
    (3 / 2 : ℚ) ≠ -1 ∧
      ((dielectric.reflectance 1 (3 / 2 : ℚ) = ((1 - 3 / 2) / (1 + 3 / 2)) ^ 2 ∧
          dielectric.reflectance 0 (3 / 2 : ℚ) = 1) ∧
        ((1 - 3 / 2 : ℚ) / (1 + 3 / 2)) ^ 2 = 1 / 25) :=
  ⟨by norm_num, dielectric_reflectance_end_points (3 / 2) (by norm_num), by norm_num⟩

/-- C10 as stated fails: built with the fuzz argument -1, the metal stores the
fuzz -1, which is below 0. -/
theorem metal_fuzz_clamp_counterexample :
    ¬ (0 ≤ (metal.ctor (⟨1, 1, 1⟩ : color ℚ) (-1)).fuzz ∧
        (metal.ctor (⟨1, 1, 1⟩ : color ℚ) (-1)).fuzz ≤ 1) := by
  norm_num [metal.ctor]

/-- C10, amended: for every albedo and every fuzz argument `f`, the metal
constructor stores `min(f, 1)`: the stored fuzz is at most 1, and it is at
least 0 exactly when `f` is. -/
theorem metal_fuzz_clamped_above (a : color F) (f : F) :
    (metal.ctor a f).fuzz = min f 1 ∧ (metal.ctor a f).fuzz ≤ 1 ∧
      (0 ≤ (metal.ctor a f).fuzz ↔ 0 ≤ f) := by
  simp only [metal.ctor]
  by_cases h : f < 1
  · rw [if_pos h, min_eq_left (le_of_lt h)]
    exact ⟨rfl, le_of_lt h, Iff.rfl⟩
  · rw [if_neg h, min_eq_right (not_lt.mp h)]
    exact ⟨rfl, le_refl _, ⟨fun _ => le_trans zero_le_one (not_lt.mp h), fun _ => zero_le_one⟩⟩

end MaterialTheorems

/-! ## Theorems on constant_medium.h -/

section ConstantMediumTheorems

variable {F : Type} [LinearOrderedField F]

/-- The method `constant_medium::hit` once both boundary queries have answered
and the clamps leave the entry and exit parameters as they are: a hit at
`t1 + hit_distance / ray_length` when the sampled distance fits. -/
theorem constant_medium.hit_of_unclamped (m : cmath F) (cm : constant_medium F) (r : ray F)
    (t_min t_max U : F) (rec rec1 rec2 : hit_record F)
    (hentry : cm.boundary r tbound.neg_infinity tbound.infinity = some rec1)
    (hexit : cm.boundary r (tbound.finite (rec1.t + 0.0001)) tbound.infinity = some rec2)
    (h0 : 0 ≤ rec1.t) (h12 : rec1.t < rec2.t) (hmin : t_min ≤ rec1.t) (hmax : rec2.t ≤ t_max)
    (hdist : cm.neg_inv_density * m.log U ≤ (rec2.t - rec1.t) * r.direction.length m) :
    cm.hit m r t_min t_max rec U =
      some { rec with
        t := rec1.t + cm.neg_inv_density * m.log U / r.direction.length m
        p := r.at (rec1.t + cm.neg_inv_density * m.log U / r.direction.length m)
        normal := ⟨1, 0, 0⟩
        front_face := true
        mat_ptr := some cm.phase_function } := by
  simp only [constant_medium.hit, hentry, hexit, if_neg (not_lt.mpr hmin),
    if_neg (not_lt.mpr hmax), if_neg (not_le.mpr h12), if_neg (not_lt.mpr h0),
    if_neg (not_lt.mpr hdist), gt_iff_lt, ge_iff_le]

/-- C5: for a medium of density `d > 0`, a ray with a direction other than zero
whose length the square root gives exactly, a logarithm that is negative on
(0,1) and a draw `U` in (0,1): when the boundary reports the entry `t1` and the
exit `t2` with `0 <= t1 < t2`, both inside `[t_min, t_max]`, and
`hit_distance = -ln(U) / d <= (t2 - t1) * |direction|`, then
`constant_medium::hit` reports a hit with `t = t1 + hit_distance / |direction|`
and `p = r.at(t)`; `hit_distance` is positive and the squared distance from the
entry point to `p` is `hit_distance^2`.  In particular, with `d = 1`, `t1 = 0`,
a boundary spanning a world distance of 10 and `ln(U) = -5`, the point `p` is
the midpoint of the entry and exit points. -/
theorem constant_medium_hit_at_free_flight_distance (m : cmath F) (b : hittable F) (d : F)
    (a : texture F) (r : ray F) (t_min t_max U : F) (rec rec1 rec2 : hit_record F)
    (hd : 0 < d) (hdir : r.direction ≠ ⟨0, 0, 0⟩)
    (hsqrt : m.sqrt_exact_at r.direction.length_squared)
    (hlog : ∀ x : F, 0 < x → x < 1 → m.log x < 0) (hU0 : 0 < U) (hU1 : U < 1)
    (hentry : b r tbound.neg_infinity tbound.infinity = some rec1)
    (hexit : b r (tbound.finite (rec1.t + 0.0001)) tbound.infinity = some rec2)
    (h0 : 0 ≤ rec1.t) (h12 : rec1.t < rec2.t) (hmin : t_min ≤ rec1.t) (hmax : rec2.t ≤ t_max)
    (hdist : -m.log U / d ≤ (rec2.t - rec1.t) * r.direction.length m) :
    ∃ out : hit_record F,
      (constant_medium.ctor b d a).hit m r t_min t_max rec U = some out ∧
        out.t = rec1.t + (-m.log U / d) / r.direction.length m ∧
        out.p = r.at out.t ∧
        0 < -m.log U / d ∧
        (out.p - r.at rec1.t).length_squared = (-m.log U / d) ^ 2 ∧
        (d = 1 → rec1.t = 0 → (rec2.t - rec1.t) * r.direction.length m = 10 → m.log U = -5 →
          out.p + out.p = r.at rec1.t + r.at rec2.t) := by
  have hlen : 0 < r.direction.length m := vec3.length_pos m r.direction hdir hsqrt
  have hlen0 : r.direction.length m ≠ 0 := ne_of_gt hlen
  have hd0 : d ≠ 0 := ne_of_gt hd
  have hsq : r.direction.length m * r.direction.length m =
      r.dir.e0 * r.dir.e0 + r.dir.e1 * r.dir.e1 + r.dir.e2 * r.dir.e2 := hsqrt.2
  have hneg : (constant_medium.ctor b d a).neg_inv_density * m.log U = -m.log U / d := by
    simp only [constant_medium.ctor]
    field_simp
  have hpos : 0 < -m.log U / d := div_pos (neg_pos.mpr (hlog U hU0 hU1)) hd
  have hhit := constant_medium.hit_of_unclamped m (constant_medium.ctor b d a) r t_min t_max U
    rec rec1 rec2 hentry hexit h0 h12 hmin hmax (by rw [hneg]; exact hdist)
  rw [hneg] at hhit
  refine ⟨_, hhit, rfl, rfl, hpos, ?_, ?_⟩
  · simp only [vec3.length_squared, vec3.sub_e0, vec3.sub_e1, vec3.sub_e2, vec3.at_e0,
      vec3.at_e1, vec3.at_e2]
    have hk : (-m.log U / d / r.direction.length m) ^ 2 *
        (r.dir.e0 * r.dir.e0 + r.dir.e1 * r.dir.e1 + r.dir.e2 * r.dir.e2) =
        (-m.log U / d) ^ 2 := by
      rw [← hsq]
      field_simp
      ring
    rw [← hk]
    ring
  · intro hd1 ht1 hspan hlog5
    have ht2 : rec2.t = 10 / r.direction.length m := by
      rw [eq_div_iff hlen0, ← hspan, ht1]
      ring
    apply vec3.eq_of_components
    · simp only [vec3.add_e0, vec3.at_e0, hd1, ht1, ht2, hlog5]
      field_simp
      ring
    · simp only [vec3.add_e1, vec3.at_e1, hd1, ht1, ht2, hlog5]
      field_simp
      ring
    · simp only [vec3.add_e2, vec3.at_e2, hd1, ht1, ht2, hlog5]
      field_simp
      ring

/-- C5 over the reals, with the real square root and logarithm: density 1, the
ray from the origin along (2,0,0), a boundary entered at `t = 0` and left at
`t = 5`, so spanning a world distance of 10, and the draw `U = e^(-5)`.  The
medium reports the hit at `t = 5/2`, at the point (5,0,0), halfway between the
entry point (0,0,0) and the exit point (10,0,0). -/
theorem constant_medium_hit_at_free_flight_distance_witness :
    ∃ out : hit_record ℝ,
      (constant_medium.ctor
          (example_boundary (some ⟨⟨0, 0, 0⟩, ⟨-1, 0, 0⟩, none, 0, 0, 0, true⟩)
            (some ⟨⟨10, 0, 0⟩, ⟨1, 0, 0⟩, none, 5, 0, 0, false⟩))
          1 (solid_color ⟨1, 1, 1⟩)).hit ⟨Real.sqrt, Real.log⟩ ⟨⟨0, 0, 0⟩, ⟨2, 0, 0⟩, 0⟩ 0 100
          ⟨⟨0, 0, 0⟩, ⟨0, 0, 0⟩, none, 0, 0, 0, false⟩ (Real.exp (-5)) = some out ∧
        out.t = 5 / 2 ∧ out.p = ⟨5, 0, 0⟩ := by
  have hs : Real.sqrt ((2 : ℝ) * 2 + 0 * 0 + 0 * 0) = 2 := by
    rw [show (2 : ℝ) * 2 + 0 * 0 + 0 * 0 = 2 ^ 2 by norm_num]
    exact Real.sqrt_sq (by norm_num)
  obtain ⟨out, h1, h2, h3, _, _, h6⟩ :=
    constant_medium_hit_at_free_flight_distance (⟨Real.sqrt, Real.log⟩ : cmath ℝ)
      (example_boundary (some ⟨⟨0, 0, 0⟩, ⟨-1, 0, 0⟩, none, 0, 0, 0, true⟩)
        (some ⟨⟨10, 0, 0⟩, ⟨1, 0, 0⟩, none, 5, 0, 0, false⟩))
      1 (solid_color ⟨1, 1, 1⟩) ⟨⟨0, 0, 0⟩, ⟨2, 0, 0⟩, 0⟩ 0 100 (Real.exp (-5))
      ⟨⟨0, 0, 0⟩, ⟨0, 0, 0⟩, none, 0, 0, 0, false⟩
      ⟨⟨0, 0, 0⟩, ⟨-1, 0, 0⟩, none, 0, 0, 0, true⟩
      ⟨⟨10, 0, 0⟩, ⟨1, 0, 0⟩, none, 5, 0, 0, false⟩
      (by norm_num)
      (by simp [ray.direction])
      ⟨Real.sqrt_nonneg _, Real.mul_self_sqrt (by norm_num [vec3.length_squared, ray.direction])⟩
      (fun x hx0 hx1 => Real.log_neg hx0 hx1)
      (Real.exp_pos _)
      (by rw [Real.exp_lt_one_iff]; norm_num)
      rfl rfl (by norm_num) (by norm_num) (by norm_num) (by norm_num)
      (by
        simp only [Real.log_exp, vec3.length, vec3.length_squared, ray.direction, hs]
        norm_num)
  have ht : out.t = 5 / 2 := by
    rw [h2]
    simp only [Real.log_exp, vec3.length, vec3.length_squared, ray.direction, hs]
    norm_num
  refine ⟨out, h1, ht, ?_⟩
  rw [h3, ht]
  apply vec3.eq_of_components <;> norm_num

/-- C6: no-hit propagation.  For every ray, `t_min`, `t_max` and random draw,
when the boundary reports no hit over the unrestricted interval the medium
reports no hit, and when the boundary reports an entry hit at `t1` but no hit
from `t1 + 0.0001` on, the medium reports no hit. -/
theorem constant_medium_no_hit_propagation (m : cmath F) (cm : constant_medium F) (r : ray F)
    (t_min t_max : F) (rec : hit_record F) (U : F) :
    (cm.boundary r tbound.neg_infinity tbound.infinity = none →
        cm.hit m r t_min t_max rec U = none) ∧
      (∀ rec1 : hit_record F,
        cm.boundary r tbound.neg_infinity tbound.infinity = some rec1 →
        cm.boundary r (tbound.finite (rec1.t + 0.0001)) tbound.infinity = none →
        cm.hit m r t_min t_max rec U = none) := by
  constructor
  · intro h
    simp only [constant_medium.hit, h]
  · intro rec1 h1 h2
    simp only [constant_medium.hit, h1, h2]

/-- C6 on two boundaries: one that is never hit, and one that is entered at
`t = 0` and reports no hit from `0.0001` on. -/
theorem constant_medium_no_hit_propagation_witness :
    (constant_medium.ctor (example_boundary none none) 1 (solid_color ⟨1, 1, 1⟩)).hit
          (⟨Real.sqrt, Real.log⟩ : cmath ℝ) ⟨⟨0, 0, 0⟩, ⟨2, 0, 0⟩, 0⟩ 0 100
          ⟨⟨0, 0, 0⟩, ⟨0, 0, 0⟩, none, 0, 0, 0, false⟩ (1 / 2) = none ∧
      (constant_medium.ctor
          (example_boundary (some ⟨⟨0, 0, 0⟩, ⟨-1, 0, 0⟩, none, 0, 0, 0, true⟩) none)
          1 (solid_color ⟨1, 1, 1⟩)).hit
          (⟨Real.sqrt, Real.log⟩ : cmath ℝ) ⟨⟨0, 0, 0⟩, ⟨2, 0, 0⟩, 0⟩ 0 100
          ⟨⟨0, 0, 0⟩, ⟨0, 0, 0⟩, none, 0, 0, 0, false⟩ (1 / 2) = none :=
  ⟨(constant_medium_no_hit_propagation _ _ _ _ _ _ _).1 rfl,
    (constant_medium_no_hit_propagation _ _ _ _ _ _ _).2
      ⟨⟨0, 0, 0⟩, ⟨-1, 0, 0⟩, none, 0, 0, 0, true⟩ rfl rfl⟩

end ConstantMediumTheorems

/-! ## Further theorems on material.h and aabb.h -/

section FurtherTheorems

variable {F : Type} [LinearOrderedField F]

/-- C11: the upper clamp of the metal fuzz.  For every fuzz argument `f >= 1`
the metal constructor stores a fuzz of exactly 1, and for every `f < 1` it
stores `f` unchanged. -/
theorem metal_fuzz_upper_clamp (a : color F) (f : F) :
    (1 ≤ f → (metal.ctor a f).fuzz = 1) ∧ (f < 1 → (metal.ctor a f).fuzz = f) := by
  constructor
  · intro h
    simp only [metal.ctor]
    rw [if_neg (not_lt.mpr h)]
  · intro h
    simp only [metal.ctor]
    rw [if_pos h]

/-- C11 at the fuzz arguments 2.3, stored as 1, and 1/2, stored unchanged. -/
theorem metal_fuzz_upper_clamp_witness :
    (metal.ctor (⟨1, 1, 1⟩ : color ℚ) (23 / 10)).fuzz = 1 ∧
      (metal.ctor (⟨1, 1, 1⟩ : color ℚ) (1 / 2)).fuzz = 1 / 2 :=
  ⟨(metal_fuzz_upper_clamp (⟨1, 1, 1⟩ : color ℚ) (23 / 10)).1 (by norm_num),
    (metal_fuzz_upper_clamp (⟨1, 1, 1⟩ : color ℚ) (1 / 2)).2 (by norm_num)⟩

/-- C12: the diffuse light is one-sided.  For every texture, hit record,
incoming ray and `(u, v, p)`, `diffuse_light::emitted` returns the texture's
value at `(u, v, p)` when `rec.front_face` is true and exactly (0,0,0) when it
is false; and `diffuse_light::scatter` always reports no scatter. -/
theorem diffuse_light_one_sided (l : diffuse_light F) (r_in : ray F) (rec : hit_record F)
    (srec : scatter_record F) (u v : F) (p : point3 F) :
    (rec.front_face = true → l.emitted r_in rec u v p = l.emit u v p) ∧
      (rec.front_face = false → l.emitted r_in rec u v p = ⟨0, 0, 0⟩) ∧
      l.scatter r_in rec srec = none := by
  refine ⟨?_, ?_, rfl⟩
  · intro h
    simp only [diffuse_light.emitted, h, if_true]
  · intro h
    simp [diffuse_light.emitted, h]

/-- C12 for a light of colour (4,4,4), seen from the front and from the back. -/
theorem diffuse_light_one_sided_witness :
    (⟨solid_color ⟨4, 4, 4⟩⟩ : diffuse_light ℚ).emitted ⟨⟨0, 0, 1⟩, ⟨0, 0, -1⟩, 0⟩
          ⟨⟨0, 0, 0⟩, ⟨0, 0, 1⟩, none, 1, 0, 0, true⟩ (1 / 2) (1 / 3) ⟨0, 0, 0⟩ = ⟨4, 4, 4⟩ ∧
      (⟨solid_color ⟨4, 4, 4⟩⟩ : diffuse_light ℚ).emitted ⟨⟨0, 0, 1⟩, ⟨0, 0, -1⟩, 0⟩
          ⟨⟨0, 0, 0⟩, ⟨0, 0, 1⟩, none, 1, 0, 0, false⟩ (1 / 2) (1 / 3) ⟨0, 0, 0⟩ = ⟨0, 0, 0⟩ :=
  ⟨(diffuse_light_one_sided (⟨solid_color ⟨4, 4, 4⟩⟩ : diffuse_light ℚ) ⟨⟨0, 0, 1⟩, ⟨0, 0, -1⟩, 0⟩
      ⟨⟨0, 0, 0⟩, ⟨0, 0, 1⟩, none, 1, 0, 0, true⟩
      ⟨⟨⟨0, 0, 0⟩, ⟨0, 0, 0⟩, 0⟩, false, ⟨0, 0, 0⟩, none⟩ (1 / 2) (1 / 3) ⟨0, 0, 0⟩).1 rfl,
    (diffuse_light_one_sided (⟨solid_color ⟨4, 4, 4⟩⟩ : diffuse_light ℚ) ⟨⟨0, 0, 1⟩, ⟨0, 0, -1⟩, 0⟩
      ⟨⟨0, 0, 0⟩, ⟨0, 0, 1⟩, none, 1, 0, 0, false⟩
      ⟨⟨⟨0, 0, 0⟩, ⟨0, 0, 0⟩, 0⟩, false, ⟨0, 0, 0⟩, none⟩ (1 / 2) (1 / 3) ⟨0, 0, 0⟩).2.1 rfl⟩

/-- C13: for every refractive index, incoming ray, hit record (either value of
`front_face`) and random draw, `dielectric::scatter` reports a scatter, which
is specular and whose attenuation is exactly (1,1,1), whichever of the reflect
and refract branches is taken. -/
theorem dielectric_scatter_specular_white (m : cmath F) (d : dielectric F) (r_in : ray F)
    (rec : hit_record F) (srec : scatter_record F) (U : F) :
    ∃ out : scatter_record F,
      d.scatter m r_in rec srec U = some out ∧ out.is_specular = true ∧
        out.attenuation = ⟨1, 1, 1⟩ ∧ out.pdf_ptr = none := by
  simp only [dielectric.scatter]
  exact ⟨_, rfl, rfl, rfl, rfl⟩

/-- C14: for all boxes A and B, the maximum corner of `surrounding_box(A, B)`
is the componentwise minimum of the two maximum corners; so on every axis where
the two maxima differ, the result's maximum is strictly below one input's
maximum, and the result then fails to enclose one of its inputs. -/
theorem surrounding_box_max_is_min_of_maxima (A B : aabb F) :
    (surrounding_box A B).maximum =
        ⟨min A.maximum.e0 B.maximum.e0, min A.maximum.e1 B.maximum.e1,
          min A.maximum.e2 B.maximum.e2⟩ ∧
      (∀ i : Nat, i < 3 →
        (surrounding_box A B).maximum.idx i = min (A.maximum.idx i) (B.maximum.idx i)) ∧
      (∀ i : Nat, i < 3 → A.maximum.idx i ≠ B.maximum.idx i →
        ((surrounding_box A B).maximum.idx i < A.maximum.idx i ∨
            (surrounding_box A B).maximum.idx i < B.maximum.idx i) ∧
          ¬ ((surrounding_box A B).encloses A ∧ (surrounding_box A B).encloses B)) := by
  have hidx : ∀ i : Nat, i < 3 →
      (surrounding_box A B).maximum.idx i = min (A.maximum.idx i) (B.maximum.idx i) := by
    intro i hi
    interval_cases i <;> rfl
  refine ⟨rfl, hidx, ?_⟩
  intro i hi hne
  have hlt : (surrounding_box A B).maximum.idx i < A.maximum.idx i ∨
      (surrounding_box A B).maximum.idx i < B.maximum.idx i := by
    rw [hidx i hi]
    rcases lt_or_gt_of_ne hne with h | h
    · exact Or.inr (by rw [min_eq_left (le_of_lt h)]; exact h)
    · exact Or.inl (by rw [min_eq_right (le_of_lt h)]; exact h)
  refine ⟨hlt, ?_⟩
  rintro ⟨hA, hB⟩
  rcases hlt with h | h
  · exact absurd (hA i hi).2 (not_le.mpr h)
  · exact absurd (hB i hi).2 (not_le.mpr h)

/-- C14 on the boxes (0,0,0)-(1,1,1) and (0,0,0)-(2,2,2), on the axis 0. -/
theorem surrounding_box_max_is_min_of_maxima_witness :
    ((surrounding_box (⟨⟨0, 0, 0⟩, ⟨1, 1, 1⟩⟩ : aabb ℚ) ⟨⟨0, 0, 0⟩, ⟨2, 2, 2⟩⟩).maximum.idx 0 <
          (⟨⟨0, 0, 0⟩, ⟨1, 1, 1⟩⟩ : aabb ℚ).maximum.idx 0 ∨
        (surrounding_box (⟨⟨0, 0, 0⟩, ⟨1, 1, 1⟩⟩ : aabb ℚ) ⟨⟨0, 0, 0⟩, ⟨2, 2, 2⟩⟩).maximum.idx 0 <
          (⟨⟨0, 0, 0⟩, ⟨2, 2, 2⟩⟩ : aabb ℚ).maximum.idx 0) ∧
      ¬ ((surrounding_box (⟨⟨0, 0, 0⟩, ⟨1, 1, 1⟩⟩ : aabb ℚ) ⟨⟨0, 0, 0⟩, ⟨2, 2, 2⟩⟩).encloses
            ⟨⟨0, 0, 0⟩, ⟨1, 1, 1⟩⟩ ∧
          (surrounding_box (⟨⟨0, 0, 0⟩, ⟨1, 1, 1⟩⟩ : aabb ℚ) ⟨⟨0, 0, 0⟩, ⟨2, 2, 2⟩⟩).encloses
            ⟨⟨0, 0, 0⟩, ⟨2, 2, 2⟩⟩) :=
  (surrounding_box_max_is_min_of_maxima (⟨⟨0, 0, 0⟩, ⟨1, 1, 1⟩⟩ : aabb ℚ)
    ⟨⟨0, 0, 0⟩, ⟨2, 2, 2⟩⟩).2.2 0 (by norm_num) (by norm_num [vec3.idx])

/-- C16: the exact characterisation of the slab test.  For every box, with
corners in any order, every ray whose three direction components are non-zero
and every `t_min`, `t_max`, `aabb::hit` returns true if and only if some `t`
with `t_min < t < t_max` puts `origin + t * direction` strictly inside the box;
in particular a box whose maximum is not above its minimum on some axis, such
as a box flat on that axis, is never hit. -/
theorem aabb_hit_exact_characterisation (b : aabb F) (r : ray F) (t_min t_max : F)
    (hd : ∀ i : Nat, i < 3 → r.direction.idx i ≠ 0) :
    (b.hit r t_min t_max = true ↔
        ∃ t : F, t_min < t ∧ t < t_max ∧ b.contains_open (r.at t)) ∧
      ((∃ i : Nat, i < 3 ∧ b.minimum.idx i = b.maximum.idx i) → b.hit r t_min t_max = false) ∧
      ((∃ i : Nat, i < 3 ∧ b.maximum.idx i ≤ b.minimum.idx i) → b.hit r t_min t_max = false) := by
  have hiff := aabb.hit_iff_exists_open b r t_min t_max hd
  have hinv : (∃ i : Nat, i < 3 ∧ b.maximum.idx i ≤ b.minimum.idx i) →
      b.hit r t_min t_max = false := by
    rintro ⟨i, hi, hle⟩
    rw [← Bool.not_eq_true, hiff]
    rintro ⟨t, _, _, hin⟩
    have h := hin i hi
    exact absurd (lt_trans h.1 h.2) (not_lt.mpr hle)
  refine ⟨hiff, ?_, hinv⟩
  rintro ⟨i, hi, heq⟩
  exact hinv ⟨i, hi, le_of_eq heq.symm⟩

/-- C16 at the box (0,0,0)-(1,1,0), flat on the axis 2, and the ray from
(-1,0,1) along (2,1,-1): no hit. -/
theorem aabb_hit_exact_characterisation_witness :
    (⟨⟨0, 0, 0⟩, ⟨1, 1, 0⟩⟩ : aabb ℚ).hit ⟨⟨-1, 0, 1⟩, ⟨2, 1, -1⟩, 0⟩ 0 10 = false :=
  (aabb_hit_exact_characterisation (⟨⟨0, 0, 0⟩, ⟨1, 1, 0⟩⟩ : aabb ℚ)
    ⟨⟨-1, 0, 1⟩, ⟨2, 1, -1⟩, 0⟩ 0 10 (by
      intro i hi
      interval_cases i <;> norm_num [vec3.idx, ray.direction])).2.1
    ⟨2, by norm_num, by norm_num [vec3.idx]⟩

/-- C15: `reflect` is the mirror reflection about the normal.  For every vector
`v` and every `n` of unit length, `reflect(v, n)` has the squared length of `v`,
`dot(reflect(v, n), n) = -dot(v, n)`, and `reflect(reflect(v, n), n) = v`; and a
metal built with fuzz 0 scatters along exactly
`reflect(unit_vector(r_in.direction), rec.normal)`. -/
theorem reflect_is_mirror_reflection (m : cmath F) (v n : vec3 F) (a : color F) (r_in : ray F)
    (rec : hit_record F) (srec : scatter_record F) (random_in_unit_sphere : vec3 F)
    (hn : n.length_squared = 1) :
    (reflect v n).length_squared = v.length_squared ∧
      dot (reflect v n) n = -dot v n ∧
      reflect (reflect v n) n = v ∧
      ∃ out : scatter_record F,
        (metal.ctor a 0).scatter m r_in rec srec random_in_unit_sphere = some out ∧
          out.specular_ray.direction = reflect (unit_vector m r_in.direction) rec.normal := by
  simp only [vec3.length_squared] at hn
  refine ⟨?_, ?_, ?_, ?_⟩
  · simp only [reflect, vec3.length_squared, vec3.sub_e0, vec3.sub_e1, vec3.sub_e2, vec3.smul_e0,
      vec3.smul_e1, vec3.smul_e2, dot]
    linear_combination (4 * (v.e0 * n.e0 + v.e1 * n.e1 + v.e2 * n.e2) ^ 2) * hn
  · simp only [reflect, vec3.sub_e0, vec3.sub_e1, vec3.sub_e2, vec3.smul_e0, vec3.smul_e1,
      vec3.smul_e2, dot]
    linear_combination (-2 * (v.e0 * n.e0 + v.e1 * n.e1 + v.e2 * n.e2)) * hn
  · apply vec3.eq_of_components
    · simp only [reflect, vec3.sub_e0, vec3.sub_e1, vec3.sub_e2, vec3.smul_e0, vec3.smul_e1,
        vec3.smul_e2, dot]
      linear_combination (4 * (v.e0 * n.e0 + v.e1 * n.e1 + v.e2 * n.e2) * n.e0) * hn
    · simp only [reflect, vec3.sub_e0, vec3.sub_e1, vec3.sub_e2, vec3.smul_e0, vec3.smul_e1,
        vec3.smul_e2, dot]
      linear_combination (4 * (v.e0 * n.e0 + v.e1 * n.e1 + v.e2 * n.e2) * n.e1) * hn
    · simp only [reflect, vec3.sub_e0, vec3.sub_e1, vec3.sub_e2, vec3.smul_e0, vec3.smul_e1,
        vec3.smul_e2, dot]
      linear_combination (4 * (v.e0 * n.e0 + v.e1 * n.e1 + v.e2 * n.e2) * n.e2) * hn
  · refine ⟨_, rfl, ?_⟩
    have hf : (metal.ctor a (0 : F)).fuzz = 0 := by
      simp only [metal.ctor]
      rw [if_pos zero_lt_one]
    simp only [ray.direction, hf]
    apply vec3.eq_of_components
    · simp only [vec3.add_e0, vec3.smul_e0, mul_zero, add_zero]
    · simp only [vec3.add_e1, vec3.smul_e1, mul_zero, add_zero]
    · simp only [vec3.add_e2, vec3.smul_e2, mul_zero, add_zero]

/-- C15 over the reals for `v = (1,2,3)` and the unit normal (0,0,1): the
mirror image is (1,2,-3). -/
theorem reflect_is_mirror_reflection_witness :
    reflect (⟨1, 2, 3⟩ : vec3 ℝ) ⟨0, 0, 1⟩ = ⟨1, 2, -3⟩ ∧
      (reflect (⟨1, 2, 3⟩ : vec3 ℝ) ⟨0, 0, 1⟩).length_squared =
        (⟨1, 2, 3⟩ : vec3 ℝ).length_squared ∧
      dot (reflect (⟨1, 2, 3⟩ : vec3 ℝ) ⟨0, 0, 1⟩) ⟨0, 0, 1⟩ = -dot (⟨1, 2, 3⟩ : vec3 ℝ) ⟨0, 0, 1⟩ ∧
      reflect (reflect (⟨1, 2, 3⟩ : vec3 ℝ) ⟨0, 0, 1⟩) ⟨0, 0, 1⟩ = ⟨1, 2, 3⟩ :=
  have h := reflect_is_mirror_reflection (⟨Real.sqrt, Real.log⟩ : cmath ℝ) ⟨1, 2, 3⟩ ⟨0, 0, 1⟩
    ⟨1, 1, 1⟩ ⟨⟨0, 0, 1⟩, ⟨0, 0, -1⟩, 0⟩ ⟨⟨0, 0, 0⟩, ⟨0, 0, 1⟩, none, 1, 0, 0, true⟩
    ⟨⟨⟨0, 0, 0⟩, ⟨0, 0, 0⟩, 0⟩, false, ⟨0, 0, 0⟩, none⟩ ⟨1 / 2, 0, 0⟩
    (by norm_num [vec3.length_squared])
  ⟨by
    apply vec3.eq_of_components <;>
      norm_num [reflect, dot, vec3.sub_e0, vec3.sub_e1, vec3.sub_e2, vec3.smul_e0, vec3.smul_e1,
        vec3.smul_e2],
    h.1, h.2.1, h.2.2.1⟩

/-- C18: Schlick's reflectance is a probability.  For every `ref_idx > 0`,
`r0 = ((1 - ref_idx) / (1 + ref_idx))^2` satisfies `0 <= r0 < 1`; for every
cosine in [0,1] the reflectance lies in `[r0, 1]`; and for cosines
`c1 <= c2 <= 1`, so in particular on [0,1], the reflectance at `c2` is at most
that at `c1`. -/
theorem dielectric_reflectance_is_probability (ref_idx cosine c1 c2 : F) (hr : 0 < ref_idx)
    (hc0 : 0 ≤ cosine) (hc1 : cosine ≤ 1) (h12 : c1 ≤ c2) (h2 : c2 ≤ 1) :
    0 ≤ ((1 - ref_idx) / (1 + ref_idx)) ^ 2 ∧
      ((1 - ref_idx) / (1 + ref_idx)) ^ 2 < 1 ∧
      ((1 - ref_idx) / (1 + ref_idx)) ^ 2 ≤ dielectric.reflectance cosine ref_idx ∧
      dielectric.reflectance cosine ref_idx ≤ 1 ∧
      dielectric.reflectance c2 ref_idx ≤ dielectric.reflectance c1 ref_idx := by
  have hpos : 0 < 1 + ref_idx := by linarith
  have hq1 : (1 - ref_idx) / (1 + ref_idx) < 1 := by
    rw [div_lt_one hpos]
    linarith
  have hq2 : -1 < (1 - ref_idx) / (1 + ref_idx) := by
    rw [lt_div_iff₀ hpos]
    linarith
  have hr0 : ((1 - ref_idx) / (1 + ref_idx)) ^ 2 < 1 := by nlinarith
  have hr0' : 0 ≤ ((1 - ref_idx) / (1 + ref_idx)) ^ 2 := sq_nonneg _
  have hrefl : ∀ c : F, dielectric.reflectance c ref_idx =
      ((1 - ref_idx) / (1 + ref_idx)) ^ 2 +
        (1 - ((1 - ref_idx) / (1 + ref_idx)) ^ 2) * (1 - c) ^ 5 := by
    intro c
    simp only [dielectric.reflectance]
    ring
  have hp0 : 0 ≤ (1 - cosine) ^ 5 := pow_nonneg (by linarith) 5
  have hp1 : (1 - cosine) ^ 5 ≤ 1 := pow_le_one₀ (by linarith) (by linarith)
  have hmono : (1 - c2) ^ 5 ≤ (1 - c1) ^ 5 := pow_le_pow_left₀ (by linarith) (by linarith) 5
  refine ⟨hr0', hr0, ?_, ?_, ?_⟩
  · rw [hrefl]
    nlinarith [mul_nonneg (le_of_lt (sub_pos.mpr hr0)) hp0]
  · rw [hrefl]
    nlinarith [mul_le_mul_of_nonneg_left hp1 (le_of_lt (sub_pos.mpr hr0))]
  · rw [hrefl, hrefl]
    nlinarith [mul_le_mul_of_nonneg_left hmono (le_of_lt (sub_pos.mpr hr0))]

/-- C18 for glass, `ref_idx = 3/2`, at the cosine 1/2 and between the cosines
1/4 and 3/4. -/
theorem dielectric_reflectance_is_probability_witness :
    0 ≤ ((1 - (3 / 2 : ℚ)) / (1 + 3 / 2)) ^ 2 ∧
      ((1 - (3 / 2 : ℚ)) / (1 + 3 / 2)) ^ 2 < 1 ∧
      ((1 - (3 / 2 : ℚ)) / (1 + 3 / 2)) ^ 2 ≤ dielectric.reflectance (1 / 2) (3 / 2) ∧
      dielectric.reflectance (1 / 2) (3 / 2 : ℚ) ≤ 1 ∧
      dielectric.reflectance (3 / 4) (3 / 2 : ℚ) ≤ dielectric.reflectance (1 / 4) (3 / 2) :=
  dielectric_reflectance_is_probability (3 / 2) (1 / 2) (1 / 4) (3 / 4) (by norm_num)
    (by norm_num) (by norm_num) (by norm_num) (by norm_num)

end FurtherTheorems

/-! ## Theorems on integrate_x_sq.cpp -/

section IntegrateXSqTheorems

variable {F : Type} [LinearOrderedField F]

/-- Every non-zero sample adds exactly 8/3 to the running sum. -/
theorem integrate_x_sq.sum_loop_eq (xs : List F) (sum : F) (hx : ∀ x ∈ xs, x ≠ 0) :
    integrate_x_sq.sum_loop xs sum = sum + (xs.length : F) * (8 / 3) := by
  induction xs generalizing sum with
  | nil => simp [integrate_x_sq.sum_loop]
  | cons x rest ih =>
    have hx0 : x ≠ 0 := hx x (List.mem_cons_self _ _)
    have hterm : x * x / integrate_x_sq.pdf x = 8 / 3 := by
      simp only [integrate_x_sq.pdf]
      field_simp
      ring
    simp only [integrate_x_sq.sum_loop, List.length_cons, Nat.cast_add, Nat.cast_one]
    rw [ih _ (fun y hy => hx y (List.mem_cons_of_mem _ hy)), hterm]
    ring

/-- C20: the importance-sampled estimator of `integrate_x_sq` has no variance.
For every sample `x` other than 0, `x * x / pdf(x)` is exactly 8/3, so for every
non-empty sequence of non-zero samples the printed estimate `sum / N` is 8/3. -/
theorem integrate_x_sq_estimate_is_exact (xs : List F) (hne : xs ≠ [])
    (hx : ∀ x ∈ xs, x ≠ 0) :
    (∀ x : F, x ≠ 0 → x * x / integrate_x_sq.pdf x = 8 / 3) ∧
      integrate_x_sq.main xs = 8 / 3 := by
  constructor
  · intro x hx0
    simp only [integrate_x_sq.pdf]
    field_simp
    ring
  · have hlen : (xs.length : F) ≠ 0 := by
      have : xs.length ≠ 0 := fun h => hne (List.length_eq_zero.mp h)
      exact_mod_cast this
    simp only [integrate_x_sq.main]
    rw [integrate_x_sq.sum_loop_eq xs 0 hx]
    field_simp
    ring

/-- C20 for the three samples 1, 2 and 1/2. -/
theorem integrate_x_sq_estimate_is_exact_witness :
    integrate_x_sq.main ([1, 2, 1 / 2] : List ℚ) = 8 / 3 :=
  (integrate_x_sq_estimate_is_exact ([1, 2, 1 / 2] : List ℚ) (by simp) (by
    intro x hx
    simp only [List.mem_cons, List.mem_singleton, List.not_mem_nil, or_false] at hx
    rcases hx with rfl | rfl | rfl <;> norm_num)).2

end IntegrateXSqTheorems

/-! ## Theorems on refract -/

section RefractTheorems

variable {F : Type} [LinearOrderedField F]

/-- The Cauchy-Schwarz bound for two vectors of unit length. -/
theorem dot_sq_le_one (u n : vec3 F) (hu : u.length_squared = 1) (hn : n.length_squared = 1) :
    dot u n ^ 2 ≤ 1 := by
  simp only [vec3.length_squared] at hu hn
  simp only [dot]
  have hL : (u.e0 * n.e0 + u.e1 * n.e1 + u.e2 * n.e2) ^ 2 +
      ((u.e0 * n.e1 - u.e1 * n.e0) ^ 2 + (u.e1 * n.e2 - u.e2 * n.e1) ^ 2 +
        (u.e2 * n.e0 - u.e0 * n.e2) ^ 2) =
      (u.e0 * u.e0 + u.e1 * u.e1 + u.e2 * u.e2) * (n.e0 * n.e0 + n.e1 * n.e1 + n.e2 * n.e2) := by
    ring
  rw [hu, hn] at hL
  nlinarith [sq_nonneg (u.e0 * n.e1 - u.e1 * n.e0), sq_nonneg (u.e1 * n.e2 - u.e2 * n.e1),
    sq_nonneg (u.e2 * n.e0 - u.e0 * n.e2)]

/-- C19: for every unit vector `uv`, unit normal `n` and ratio `etai_over_etat`
without total internal reflection, that is with
`etai_over_etat^2 * (1 - dot(uv, n)^2) <= 1`, and a square root that is exact
on the non-negative numbers, `refract(uv, n, etai_over_etat)` has a squared
length of exactly 1. -/
theorem refract_unit_length (m : cmath F) (uv n : vec3 F) (etai_over_etat : F)
    (hsqrt : ∀ x : F, 0 ≤ x → m.sqrt_exact_at x)
    (huv : uv.length_squared = 1) (hn : n.length_squared = 1)
    (hnotir : etai_over_etat ^ 2 * (1 - dot uv n ^ 2) ≤ 1) :
    (refract m uv n etai_over_etat).length_squared = 1 := by
  have hcs := dot_sq_le_one uv n huv hn
  have hneg : dot (-uv) n = -dot uv n := by
    simp only [dot, vec3.neg_e0, vec3.neg_e1, vec3.neg_e2]
    ring
  have hcos : fmin (dot (-uv) n) 1 = -dot uv n := by
    rw [hneg, fmin, min_eq_left]
    nlinarith
  have hP : (etai_over_etat * (uv + (-dot uv n) * n)).length_squared =
      etai_over_etat ^ 2 * (1 - dot uv n ^ 2) := by
    simp only [vec3.length_squared] at huv hn
    simp only [vec3.length_squared, vec3.smul_e0, vec3.smul_e1, vec3.smul_e2, vec3.add_e0,
      vec3.add_e1, vec3.add_e2, dot]
    linear_combination etai_over_etat ^ 2 * huv +
      (etai_over_etat ^ 2 * (uv.e0 * n.e0 + uv.e1 * n.e1 + uv.e2 * n.e2) ^ 2) * hn
  have hnonneg : 0 ≤ 1 - (etai_over_etat * (uv + (-dot uv n) * n)).length_squared := by
    rw [hP]
    linarith
  have habs : fabs (1 - (etai_over_etat * (uv + (-dot uv n) * n)).length_squared) =
      1 - (etai_over_etat * (uv + (-dot uv n) * n)).length_squared := abs_of_nonneg hnonneg
  have hs := (hsqrt _ hnonneg).2
  simp only [refract, hcos, habs]
  generalize m.sqrt (1 - (etai_over_etat * (uv + (-dot uv n) * n)).length_squared) = s at hs ⊢
  rw [hP] at hs
  simp only [vec3.length_squared] at huv hn
  simp only [dot] at hs
  simp only [vec3.length_squared, vec3.smul_e0, vec3.smul_e1, vec3.smul_e2, vec3.add_e0,
    vec3.add_e1, vec3.add_e2, dot]
  linear_combination etai_over_etat ^ 2 * huv +
    (etai_over_etat ^ 2 * (uv.e0 * n.e0 + uv.e1 * n.e1 + uv.e2 * n.e2) ^ 2 +
      2 * s * etai_over_etat * (uv.e0 * n.e0 + uv.e1 * n.e1 + uv.e2 * n.e2) + s ^ 2) * hn + hs

/-- C19 over the reals, with the real square root: the unit vector
(3/5, 0, -4/5) entering along the normal (0,0,1) with the ratio 2/3. -/
theorem refract_unit_length_witness :
    (refract (⟨Real.sqrt, Real.log⟩ : cmath ℝ) ⟨3 / 5, 0, -4 / 5⟩ ⟨0, 0, 1⟩
      (2 / 3)).length_squared = 1 :=
  refract_unit_length (⟨Real.sqrt, Real.log⟩ : cmath ℝ) ⟨3 / 5, 0, -4 / 5⟩ ⟨0, 0, 1⟩ (2 / 3)
    (fun x hx => ⟨Real.sqrt_nonneg x, Real.mul_self_sqrt hx⟩)
    (by norm_num [vec3.length_squared]) (by norm_num [vec3.length_squared])
    (by norm_num [dot])

end RefractTheorems

/-! ## Further theorems on constant_medium.h -/

section ConstantMediumRange

variable {F : Type} [LinearOrderedField F]

theorem ite_clamp_below (a x : F) : (if a < x then x else a) = max a x := by
  by_cases c : a < x
  · rw [if_pos c, max_eq_right (le_of_lt c)]
  · rw [if_neg c, max_eq_left (not_lt.mp c)]

theorem ite_clamp_above (a x : F) : (if x < a then x else a) = min a x := by
  by_cases c : x < a
  · rw [if_pos c, min_eq_right (le_of_lt c)]
  · rw [if_neg c, min_eq_left (not_lt.mp c)]

/-- What a hit of `constant_medium::hit` tells: both boundary queries answered,
the clamped interval is not empty, the sampled distance fits in it, and the
returned `t` is the clamped entry plus the sampled distance over the length. -/
theorem constant_medium.hit_eq_some (m : cmath F) (cm : constant_medium F) (r : ray F)
    (t_min t_max U : F) (rec out : hit_record F)
    (hhit : cm.hit m r t_min t_max rec U = some out) :
    ∃ rec1 rec2 : hit_record F,
      cm.boundary r tbound.neg_infinity tbound.infinity = some rec1 ∧
        cm.boundary r (tbound.finite (rec1.t + 0.0001)) tbound.infinity = some rec2 ∧
        max rec1.t t_min < min rec2.t t_max ∧
        cm.neg_inv_density * m.log U ≤
          (min rec2.t t_max - max (max rec1.t t_min) 0) * r.direction.length m ∧
        out.t = max (max rec1.t t_min) 0 + cm.neg_inv_density * m.log U / r.direction.length m ∧
        out.p = r.at out.t := by
  unfold constant_medium.hit at hhit
  cases h1 : cm.boundary r tbound.neg_infinity tbound.infinity with
  | none =>
    rw [h1] at hhit
    exact absurd hhit (by simp)
  | some rec1 =>
    rw [h1] at hhit
    simp only at hhit
    cases h2 : cm.boundary r (tbound.finite (rec1.t + 0.0001)) tbound.infinity with
    | none =>
      rw [h2] at hhit
      exact absurd hhit (by simp)
    | some rec2 =>
      rw [h2] at hhit
      simp only [apply_ite hit_record.t, ge_iff_le, gt_iff_lt, ite_clamp_below,
        ite_clamp_above] at hhit
      by_cases c1 : min rec2.t t_max ≤ max rec1.t t_min
      · rw [if_pos c1] at hhit
        exact absurd hhit (by simp)
      · rw [if_neg c1] at hhit
        by_cases c2 : (min rec2.t t_max - max (max rec1.t t_min) 0) * r.direction.length m <
            cm.neg_inv_density * m.log U
        · rw [if_pos c2] at hhit
          exact absurd hhit (by simp)
        · rw [if_neg c2] at hhit
          have hout := Option.some.inj hhit
          refine ⟨rec1, rec2, rfl, h2, not_le.mp c1, not_lt.mp c2, ?_, ?_⟩
          · rw [← hout]
          · rw [← hout]

/-- C17: for a medium of density `d > 0`, a ray with a direction other than
zero whose length the square root gives exactly, any boundary, any `t_min`,
`t_max`, a logarithm that is at most 0 on (0,1] and a draw `U` in (0,1]:
whenever `constant_medium::hit` reports a hit, the returned `t` satisfies
`t_min <= t <= t_max` and `t >= 0`, and it lies between the boundary's entry
parameter clamped to `t_min` and 0 and its exit parameter clamped to `t_max`. -/
theorem constant_medium_hit_t_in_range (m : cmath F) (b : hittable F) (d : F) (a : texture F)
    (r : ray F) (t_min t_max U : F) (rec out : hit_record F)
    (hd : 0 < d) (hdir : r.direction ≠ ⟨0, 0, 0⟩)
    (hsqrt : m.sqrt_exact_at r.direction.length_squared)
    (hlog : ∀ x : F, 0 < x → x ≤ 1 → m.log x ≤ 0) (hU0 : 0 < U) (hU1 : U ≤ 1)
    (hhit : (constant_medium.ctor b d a).hit m r t_min t_max rec U = some out) :
    t_min ≤ out.t ∧ out.t ≤ t_max ∧ 0 ≤ out.t ∧
      ∃ rec1 rec2 : hit_record F,
        b r tbound.neg_infinity tbound.infinity = some rec1 ∧
          b r (tbound.finite (rec1.t + 0.0001)) tbound.infinity = some rec2 ∧
          max (max rec1.t t_min) 0 ≤ out.t ∧ out.t ≤ min rec2.t t_max := by
  obtain ⟨rec1, rec2, h1, h2, _, hfit, ht, _⟩ :=
    constant_medium.hit_eq_some m (constant_medium.ctor b d a) r t_min t_max U rec out hhit
  have hlen : 0 < r.direction.length m := vec3.length_pos m r.direction hdir hsqrt
  have hdist : 0 ≤ (constant_medium.ctor b d a).neg_inv_density * m.log U := by
    simp only [constant_medium.ctor]
    have hl := hlog U hU0 hU1
    have hnd : -1 / d < 0 := div_neg_of_neg_of_pos (by norm_num) hd
    exact mul_nonneg_of_nonpos_of_nonpos (le_of_lt hnd) hl
  have hstep : 0 ≤ (constant_medium.ctor b d a).neg_inv_density * m.log U /
      r.direction.length m := div_nonneg hdist (le_of_lt hlen)
  have hstep' : (constant_medium.ctor b d a).neg_inv_density * m.log U / r.direction.length m ≤
      min rec2.t t_max - max (max rec1.t t_min) 0 := by
    rw [div_le_iff₀ hlen]
    exact hfit
  have hlo : max (max rec1.t t_min) 0 ≤ out.t := by
    rw [ht]
    linarith
  have hhi : out.t ≤ min rec2.t t_max := by
    rw [ht]
    linarith
  refine ⟨?_, ?_, ?_, rec1, rec2, h1, h2, hlo, hhi⟩
  · exact le_trans (le_trans (le_max_right _ _) (le_max_left _ _)) hlo
  · exact le_trans hhi (min_le_right _ _)
  · exact le_trans (le_max_right _ _) hlo

/-- C17 over the reals, with the real square root and logarithm: density 1, the
ray from the origin along (2,0,0), a boundary entered at `t = -1` and left at
`t = 5`, the interval from 0 to 4 and the draw `U = e^(-5)`.  The medium
reports a hit at `t = 5/2`, inside the clamped interval from 0 to 4. -/
theorem constant_medium_hit_t_in_range_witness :
    ∃ out : hit_record ℝ,
      (constant_medium.ctor
          (example_boundary (some ⟨⟨-2, 0, 0⟩, ⟨-1, 0, 0⟩, none, -1, 0, 0, true⟩)
            (some ⟨⟨10, 0, 0⟩, ⟨1, 0, 0⟩, none, 5, 0, 0, false⟩))
          1 (solid_color ⟨1, 1, 1⟩)).hit ⟨Real.sqrt, Real.log⟩ ⟨⟨0, 0, 0⟩, ⟨2, 0, 0⟩, 0⟩ 0 4
          ⟨⟨0, 0, 0⟩, ⟨0, 0, 0⟩, none, 0, 0, 0, false⟩ (Real.exp (-5)) = some out ∧
        out.t = 5 / 2 ∧ (0 : ℝ) ≤ out.t ∧ out.t ≤ 4 := by
  have hs : Real.sqrt ((2 : ℝ) * 2 + 0 * 0 + 0 * 0) = 2 := by
    rw [show (2 : ℝ) * 2 + 0 * 0 + 0 * 0 = 2 ^ 2 by norm_num]
    exact Real.sqrt_sq (by norm_num)
  have hhit : (constant_medium.ctor
      (example_boundary (some ⟨⟨-2, 0, 0⟩, ⟨-1, 0, 0⟩, none, -1, 0, 0, true⟩)
        (some ⟨⟨10, 0, 0⟩, ⟨1, 0, 0⟩, none, 5, 0, 0, false⟩))
      1 (solid_color ⟨1, 1, 1⟩)).hit ⟨Real.sqrt, Real.log⟩ ⟨⟨0, 0, 0⟩, ⟨2, 0, 0⟩, 0⟩ 0 4
      ⟨⟨0, 0, 0⟩, ⟨0, 0, 0⟩, none, 0, 0, 0, false⟩ (Real.exp (-5)) =
      some ⟨(⟨⟨0, 0, 0⟩, ⟨2, 0, 0⟩, 0⟩ : ray ℝ).at (5 / 2), ⟨1, 0, 0⟩,
        some (material.isotropic ⟨solid_color ⟨1, 1, 1⟩⟩), 5 / 2, 0, 0, true⟩ := by
    simp only [constant_medium.hit, constant_medium.ctor, example_boundary, Real.log_exp,
      vec3.length, vec3.length_squared, ray.direction, hs]
    norm_num
  have h := constant_medium_hit_t_in_range (⟨Real.sqrt, Real.log⟩ : cmath ℝ)
    (example_boundary (some ⟨⟨-2, 0, 0⟩, ⟨-1, 0, 0⟩, none, -1, 0, 0, true⟩)
      (some ⟨⟨10, 0, 0⟩, ⟨1, 0, 0⟩, none, 5, 0, 0, false⟩))
    1 (solid_color ⟨1, 1, 1⟩) ⟨⟨0, 0, 0⟩, ⟨2, 0, 0⟩, 0⟩ 0 4 (Real.exp (-5))
    ⟨⟨0, 0, 0⟩, ⟨0, 0, 0⟩, none, 0, 0, 0, false⟩ _
    (by norm_num)
    (by simp [ray.direction])
    ⟨Real.sqrt_nonneg _, Real.mul_self_sqrt (by norm_num [vec3.length_squared, ray.direction])⟩
    (fun x hx0 hx1 => Real.log_nonpos (le_of_lt hx0) hx1)
    (Real.exp_pos _)
    (by rw [Real.exp_le_one_iff]; norm_num)
    hhit
  exact ⟨_, hhit, rfl, h.1, h.2.1⟩

end ConstantMediumRange

end RayTracing
